import Mathlib

/-
Verification of the ankimorphs recalculation engine (`recalc.py`) and the
jieba segmentation wrapper (`jieba_wrapper.py`).

The Python code is shallowly embedded: every function is translated into a
Lean definition operating on explicit data (Python dicts become association
lists or `Nat → Option _` maps, Python sets become duplicate-free lists,
mutation becomes explicit state passing).  Machine integers are modelled as
`Nat` (all quantities involved — dues, scores, ranks, offsets — are
non-negative and the code itself clamps at `_DEFAULT_SCORE` to avoid 32-bit
overflow).
-/

namespace AnkiMorphs

/-- `_DEFAULT_SCORE` from `recalc.py`: Anki stores `due` as a 32-bit integer
with max 2147483647; the second digit is decremented to leave 10^8 leeway. -/
def DEFAULT_SCORE : Nat := 2047483647

/-- `morph_unknown_penalty` from
`_get_card_score_and_unknowns_and_learning_status` in `recalc.py`. -/
def MORPH_UNKNOWN_PENALTY : Nat := 500000

/-- A morpheme as stored in the card-morph cache.  The cache builder
(`_cache_anki_data`) always writes a `highest_learning_interval`, and the
scorer asserts it is not `None`, so the interval is modelled as a plain
`Nat`.  (`lemma` is a reserved word in Lean, hence `lemma'`.) -/
structure Morpheme where
  lemma' : String
  inflection : String
  highest_learning_interval : Nat
deriving DecidableEq

/-- Modelled from the spec: the property `Morpheme.lemma_and_inflection`
lives in `morpheme.py`, which is not part of the sources.  The spec keys
priority tables by the (lemma, inflection) identity and the frequency-file
builder uses the concatenation `row[0] + row[1]` as key, so the property is
modelled as the concatenation of the two fields. -/
def Morpheme.lemma_and_inflection (m : Morpheme) : String :=
  m.lemma' ++ m.inflection

/-- The configuration fields of `AnkiMorphsConfig` consumed by the modelled
functions of `recalc.py`. -/
structure AnkiMorphsConfig where
  recalc_interval_for_known : Nat
  recalc_move_known_new_cards_to_the_end : Bool
  recalc_suspend_known_new_cards : Bool
  recalc_due_offset : Nat
  recalc_number_of_morphs_to_offset : Nat
  tag_ready : String
  tag_not_ready : String
  tag_known_automatically : String
  tag_known_manually : String

/-! ### Scorer (`_get_card_score_and_unknowns_and_learning_status`) -/

/-- One iteration of the scorer's `for morph in card_morphs` loop.  The
accumulator is `(unknown_morphs, has_learning_morph, score)`. -/
def scoreLoopStep (cfg : AnkiMorphsConfig) (morph_priority : String → Option Nat)
    (acc : List Morpheme × Bool × Nat) (morph : Morpheme) : List Morpheme × Bool × Nat :=
  let unknown_morphs := acc.1
  let has_learning_morph := acc.2.1
  let score := acc.2.2
  let unknown_morphs :=
    if morph.highest_learning_interval = 0 then unknown_morphs ++ [morph] else unknown_morphs
  let has_learning_morph :=
    if morph.highest_learning_interval ≠ 0 ∧
        morph.highest_learning_interval < cfg.recalc_interval_for_known then
      true
    else has_learning_morph
  let score :=
    match morph_priority morph.lemma_and_inflection with
    | none => MORPH_UNKNOWN_PENALTY - 1
    | some p => score + p
  (unknown_morphs, has_learning_morph, score)

/-- `_get_card_score_and_unknowns_and_learning_status` from `recalc.py`.
The card-morph cache is a map `card_id → list of morphs` (`none` models a
`KeyError`), the priority table a map `morph key → rank`.  Returns
`(score, unknown_morphs, has_learning_morph)`. -/
def get_card_score_and_unknowns_and_learning_status
    (cfg : AnkiMorphsConfig) (card_id : Nat)
    (card_morph_map_cache : Nat → Option (List Morpheme))
    (morph_priority : String → Option Nat) : Nat × List Morpheme × Bool :=
  match card_morph_map_cache card_id with
  | none => (DEFAULT_SCORE, [], false)
  | some card_morphs =>
    let acc := card_morphs.foldl (scoreLoopStep cfg morph_priority) ([], false, 0)
    let unknown_morphs := acc.1
    let has_learning_morph := acc.2.1
    let score := acc.2.2
    if unknown_morphs.length = 0 ∧ cfg.recalc_move_known_new_cards_to_the_end then
      (DEFAULT_SCORE, unknown_morphs, has_learning_morph)
    else
      let score := if MORPH_UNKNOWN_PENALTY ≤ score then MORPH_UNKNOWN_PENALTY - 1 else score
      let score := score + unknown_morphs.length * MORPH_UNKNOWN_PENALTY
      (min score DEFAULT_SCORE, unknown_morphs, has_learning_morph)

/-! ### Tag/state updater (`_update_tags_and_queue`, `remove_exclusive_tags`) -/

/-- The suspended queue state, `CardQueue(-1)`. -/
def suspendedQueue : Int := -1

/-- `remove_exclusive_tags` from `recalc.py`: remove the first occurrence of
each of the listed tags, when present (`list.remove` removes the first
occurrence). -/
def remove_exclusive_tags (tags : List String) (mutually_exclusive_tags : List String) :
    List String :=
  mutually_exclusive_tags.foldl (fun ts tag => if tag ∈ ts then ts.erase tag else ts) tags

/-- `_update_tags_and_queue` from `recalc.py`, acting on the note's tag list
and the card's queue state; returns the updated `(tags, queue)`. -/
def _update_tags_and_queue (cfg : AnkiMorphsConfig) (tags : List String) (queue : Int)
    (unknowns : Nat) (has_learning_morphs : Bool) : List String × Int :=
  let mutually_exclusive_tags := [cfg.tag_ready, cfg.tag_not_ready, cfg.tag_known_automatically]
  if cfg.tag_known_manually ∈ tags then
    (remove_exclusive_tags tags mutually_exclusive_tags, queue)
  else if unknowns = 0 then
    let queue :=
      if cfg.recalc_suspend_known_new_cards ∧ queue ≠ suspendedQueue then suspendedQueue
      else queue
    if cfg.tag_known_automatically ∉ tags then
      let tags' := remove_exclusive_tags tags mutually_exclusive_tags
      (if ¬ has_learning_morphs then tags' ++ [cfg.tag_known_automatically] else tags', queue)
    else (tags, queue)
  else if unknowns = 1 then
    if cfg.tag_ready ∉ tags then
      (remove_exclusive_tags tags mutually_exclusive_tags ++ [cfg.tag_ready], queue)
    else (tags, queue)
  else
    if cfg.tag_not_ready ∉ tags then
      (remove_exclusive_tags tags mutually_exclusive_tags ++ [cfg.tag_not_ready], queue)
    else (tags, queue)

/-! ### Frequency file parsing (`_get_morph_frequency_file_priority`) -/

/-- First-match lookup in an association list; later inserts are consed in
front, so this gives Python-dict (last write wins) semantics. -/
def priorityLookup (k : String) : List (String × Nat) → Option Nat
  | [] => none
  | (k', v) :: es => if k' = k then some v else priorityLookup k es

/-- The `for index, row in enumerate(morph_reader)` loop of
`_get_morph_frequency_file_priority`: stop when `index > _DEFAULT_SCORE`,
otherwise store `row[0] + row[1] ↦ index` and continue. -/
def buildPriorityAux : Nat → List (String × String) → List (String × Nat) → List (String × Nat)
  | _, [], acc => acc
  | index, row :: rows, acc =>
    if DEFAULT_SCORE < index then acc
    else buildPriorityAux (index + 1) rows ((row.1 ++ row.2, index) :: acc)

/-- `_get_morph_frequency_file_priority` from `recalc.py`, on the list of CSV
rows of the file (each row reduced to its two leading columns).  The first
row is the header and is skipped (`next(morph_reader, None)`). -/
def _get_morph_frequency_file_priority (file_rows : List (String × String)) :
    List (String × Nat) :=
  buildPriorityAux 0 (file_rows.drop 1) []

/-! ### Offset balancer (`_add_offsets_to_new_cards`) -/

/-- The (lemma, inflection) identity key of a morpheme (spec §3: equality of
morphemes is by lemma and inflection). -/
def morphKey (m : Morpheme) : String × String := (m.lemma', m.inflection)

/-- The distinct unknown morphs of a card: the set `card_unknown_morphs`
built by the balancer's first loop (a Python set, so keyed dedup). -/
def unknownKeys (morphs : List Morpheme) : List (String × String) :=
  ((morphs.filter (fun m => m.highest_learning_interval = 0)).map morphKey).dedup

/-- `some key` when the card has exactly one distinct unknown morph (the
`len(card_unknown_morphs) == 1` test followed by `pop()`), else `none`. -/
def soleUnknownKey (morphs : List Morpheme) : Option (String × String) :=
  match unknownKeys morphs with
  | [k] => some k
  | _ => none

/-- The sole-unknown key of a card through the cache; `none` both on a cache
miss (the `except KeyError: continue`) and when the distinct-unknown count is
not 1. -/
def soleKeyOf (cache : Nat → Option (List Morpheme)) (cid : Nat) :
    Option (String × String) :=
  (cache cid).bind soleUnknownKey

/-- State of the balancer's first loop: `earliest_due_card_for_unknown_morph`
(insertion-ordered association list `morph key ↦ (card id, due)`; Python dict
assignment to an existing key keeps its position) and `cards_with_morph`. -/
structure Phase1State where
  earliest : List ((String × String) × Nat × Nat)
  cards_with_morph : (String × String) → List Nat

/-- First-match lookup in the `earliest` association list. -/
def lookupEarliest (K : String × String) :
    List ((String × String) × Nat × Nat) → Option (Nat × Nat)
  | [] => none
  | e :: es => if e.1 = K then some e.2 else lookupEarliest K es

/-- In-place update of the entry for key `K`. -/
def updateEarliest (K : String × String) (v : Nat × Nat)
    (es : List ((String × String) × Nat × Nat)) :
    List ((String × String) × Nat × Nat) :=
  es.map (fun e => if e.1 = K then (K, v) else e)

/-- One iteration of the balancer's first loop for one handled card: when the
card has exactly one unknown morph, record it as earliest-due card for that
morph if it beats the current holder (`earliest[m].due > card.due`), and add
it to `cards_with_morph[m]`. -/
def phase1Step (cache : Nat → Option (List Morpheme)) (dues : Nat → Nat)
    (st : Phase1State) (cid : Nat) : Phase1State :=
  match soleKeyOf cache cid with
  | none => st
  | some K =>
    let earliest :=
      match lookupEarliest K st.earliest with
      | none => st.earliest ++ [(K, cid, dues cid)]
      | some e =>
        if e.2 > dues cid then updateEarliest K (cid, dues cid) st.earliest else st.earliest
    { earliest := earliest
      cards_with_morph := fun K' =>
        if K' = K then st.cards_with_morph K' ++ [cid] else st.cards_with_morph K' }

/-- The balancer's first loop over all of `handled_cards`. -/
def phase1 (cache : Nat → Option (List Morpheme)) (dues : Nat → Nat)
    (handled : List Nat) : Phase1State :=
  handled.foldl (phase1Step cache dues) ⟨[], fun _ => []⟩

/-- Stable insertion into a list sorted by ascending due (`item[1].due`). -/
def insertByDue (x : (String × String) × Nat × Nat) :
    List ((String × String) × Nat × Nat) → List ((String × String) × Nat × Nat)
  | [] => [x]
  | y :: ys => if x.2.2 ≤ y.2.2 then x :: y :: ys else y :: insertByDue x ys

/-- The stable sort `sorted(earliest.items(), key=lambda item: item[1].due)`
as insertion sort (stable sorts agree on their output). -/
def sortByDue : List ((String × String) × Nat × Nat) → List ((String × String) × Nat × Nat)
  | [] => []
  | x :: xs => insertByDue x (sortByDue xs)

/-- State of the balancer's second loop: the surviving `modified_cards` map
and the `modified_offset_cards` map (both card id ↦ in-memory due). -/
structure Phase2State where
  mc : Nat → Option Nat
  moc : Nat → Option Nat

/-- Handling of one sibling card in the balancer's second loop: when it is in
`modified_cards`, compound the offset from its modified due and drop the
entry if rewriting would be a no-op against the persisted due; otherwise
offset its persisted due.  The offset sum is capped at `DEFAULT_SCORE`. -/
def processSib (cfg : AnkiMorphsConfig) (dues : Nat → Nat) (st : Phase2State)
    (cid : Nat) : Phase2State :=
  match st.mc cid with
  | some d =>
    let score_and_offset := min (d + cfg.recalc_due_offset) DEFAULT_SCORE
    if dues cid = score_and_offset then
      { mc := fun c => if c = cid then none else st.mc c, moc := st.moc }
    else
      { mc := st.mc, moc := fun c => if c = cid then some score_and_offset else st.moc c }
  | none =>
    let score_and_offset := min (dues cid + cfg.recalc_due_offset) DEFAULT_SCORE
    { mc := st.mc, moc := fun c => if c = cid then some score_and_offset else st.moc c }

/-- The sibling cards of one processed morph entry: all cards having the
morph as sole unknown, with the earliest-due card removed
(`all_new_cards_with_morph.remove(earliest_due_card.id)`). -/
def sibs (cards_with_morph : (String × String) → List Nat)
    (ent : (String × String) × Nat × Nat) : List Nat :=
  (cards_with_morph ent.1).erase ent.2.1

/-- Handling of one morph entry in the balancer's second loop. -/
def processEntry (cfg : AnkiMorphsConfig) (dues : Nat → Nat)
    (cards_with_morph : (String × String) → List Nat) (st : Phase2State)
    (ent : (String × String) × Nat × Nat) : Phase2State :=
  (sibs cards_with_morph ent).foldl (processSib cfg dues) st

/-- The balancer's second loop with its counter and the
`counter > recalc_number_of_morphs_to_offset` break. -/
def phase2 (cfg : AnkiMorphsConfig) (dues : Nat → Nat)
    (cards_with_morph : (String × String) → List Nat) :
    Nat → List ((String × String) × Nat × Nat) → Phase2State → Phase2State
  | _, [], st => st
  | counter, ent :: ents, st =>
    if cfg.recalc_number_of_morphs_to_offset < counter then st
    else
      phase2 cfg dues cards_with_morph (counter + 1) ents
        (processEntry cfg dues cards_with_morph st ent)

/-- `_add_offsets_to_new_cards` from `recalc.py`.  `dues` gives each card's
persisted due (`mw.col.get_card(card_id).due`), `handled` the iteration order
of `handled_cards`, `mc` the incoming `modified_cards` map.  Returns the
final `modified_cards` map: the survivors of the incoming entries,
overridden by `modified_offset_cards`. -/
def _add_offsets_to_new_cards (cfg : AnkiMorphsConfig)
    (cache : Nat → Option (List Morpheme)) (dues : Nat → Nat)
    (handled : List Nat) (mc : Nat → Option Nat) : Nat → Option Nat :=
  let p1 := phase1 cache dues handled
  let st := phase2 cfg dues p1.cards_with_morph 0 (sortByDue p1.earliest) ⟨mc, fun _ => none⟩
  fun c => (st.moc c).orElse (fun _ => st.mc c)

/-- Committing a returned `modified_cards` map into the collection
(`mw.col.update_cards`): each card in the map takes its new due. -/
def commitDues (dues : Nat → Nat) (result : Nat → Option Nat) : Nat → Nat :=
  fun c => (result c).getD (dues c)

/-- The `modified_cards` map produced by the scoring phase of
`_update_cards_and_notes` over a collection of new cards: a card enters the
map exactly when its computed score differs from its persisted due
(`card.due != original_due`), with its in-memory due set to the score
(`card.due = card_score`). -/
def modifiedByScores (handled : List Nat) (scores : Nat → Nat) (dues : Nat → Nat) :
    Nat → Option Nat :=
  fun c => if c ∈ handled ∧ scores c ≠ dues c then some (scores c) else none

/-- One full recalc pass over a collection of new cards: the scoring phase
(re-scoring every handled card) followed by the offset balancer, committed as
one batch at the end. -/
def recalcPass (cfg : AnkiMorphsConfig) (cache : Nat → Option (List Morpheme))
    (scores : Nat → Nat) (handled : List Nat) (dues : Nat → Nat) : Nat → Nat :=
  commitDues dues
    (_add_offsets_to_new_cards cfg cache dues handled (modifiedByScores handled scores dues))

/-! ### Specification-side devices for the balancer proofs -/

/-- The cards of `handled` whose sole unknown morph has key `K`. -/
def qualifying (cache : Nat → Option (List Morpheme)) (handled : List Nat)
    (K : String × String) : List Nat :=
  handled.filter (fun c => soleKeyOf cache c = some K)

/-- The distinct sole-unknown morph keys occurring across the handled
cards. -/
def keysOf (cache : Nat → Option (List Morpheme)) (handled : List Nat) :
    List (String × String) :=
  (handled.filterMap (soleKeyOf cache)).dedup

/-- All sibling card ids over a list of morph entries. -/
def sibsUnion (cards_with_morph : (String × String) → List Nat)
    (ents : List ((String × String) × Nat × Nat)) : List Nat :=
  (ents.map (sibs cards_with_morph)).flatten

/-- The earliest-card fold of the first loop: replace the holder exactly when
the new card's due is strictly smaller. -/
def strictMinFold (dues : Nat → Nat) (acc : Option (Nat × Nat)) (l : List Nat) :
    Option (Nat × Nat) :=
  l.foldl (fun b c =>
    match b with
    | none => some (c, dues c)
    | some e => if e.2 > dues c then some (c, dues c) else b) acc

/-- The leftmost due-minimal card of a list (ties resolved to the earlier
position) — the closed form of `strictMinFold` from an empty holder. -/
def leftmostMin (dues : Nat → Nat) : List Nat → Option Nat
  | [] => none
  | c :: cs =>
    match leftmostMin dues cs with
    | none => some c
    | some b => if dues c ≤ dues b then some c else some b

/-! ### Jieba wrapper (`jieba_wrapper.py`) -/

/-- `cjk_ideograph_unicode_ranges` from `jieba_wrapper.py`.  Python 3 always
has `sys.maxunicode > 0xFFFF`, so the supplementary ranges are included. -/
def cjk_ideograph_unicode_ranges : List (Nat × Nat) :=
  [(0x3007, 0x3007), (0x4E00, 0x9FFF), (0x3400, 0x4DBF), (0xF900, 0xFAFF),
   (0x20000, 0x2A6DF), (0x2A700, 0x2B73F), (0x2B740, 0x2B81F), (0x2F800, 0x2FA1F)]

/-- `char_found_in_cjk_ranges` from `jieba_wrapper.py`. -/
def char_found_in_cjk_ranges (c : Char) : Bool :=
  cjk_ideograph_unicode_ranges.any (fun r => decide (r.1 ≤ c.toNat ∧ c.toNat ≤ r.2))

/-- `text_contains_only_cjk_ranges` from `jieba_wrapper.py`; a Python string
is modelled as its list of characters. -/
def text_contains_only_cjk_ranges (t : List Char) : Bool :=
  t.all char_found_in_cjk_ranges

/-- A morpheme as constructed by the jieba wrapper: `Morpheme(lemma=word,
inflection=word)` — no learning interval is set at this point. -/
structure RawMorpheme where
  lemma' : List Char
  inflection : List Char
deriving DecidableEq

/-- `get_morphemes_jieba` from `jieba_wrapper.py`.  The external
`posseg.cut(expression)` output is the input list of segment words. -/
def get_morphemes_jieba : List (List Char) → List RawMorpheme
  | [] => []
  | w :: ws =>
    if ¬ text_contains_only_cjk_ranges w then get_morphemes_jieba ws
    else { lemma' := w, inflection := w } :: get_morphemes_jieba ws

/-! ### Concrete instances used by witnesses and counterexamples -/

/-- A concrete configuration with the add-on's default settings (tag literals
and known-interval threshold as shipped). -/
def cfgDefault : AnkiMorphsConfig :=
  { recalc_interval_for_known := 21
    recalc_move_known_new_cards_to_the_end := true
    recalc_suspend_known_new_cards := false
    recalc_due_offset := 50000
    recalc_number_of_morphs_to_offset := 100
    tag_ready := "am-ready"
    tag_not_ready := "am-not-ready"
    tag_known_automatically := "am-known-automatically"
    tag_known_manually := "am-known-manually" }

/-- `n` pairwise distinct morphs, all unknown (learning interval 0). -/
def mkUnknownMorphs (n : Nat) : List Morpheme :=
  (List.range n).map fun i =>
    { lemma' := toString i, inflection := "", highest_learning_interval := 0 }

/-- A card-morph cache holding a card with 4096 unknown morphs and a card
with 4095 unknown morphs. -/
def c1Cache : Nat → Option (List Morpheme) := fun cid =>
  if cid = 1 then some (mkUnknownMorphs 4096)
  else if cid = 2 then some (mkUnknownMorphs 4095)
  else none

/-- A card-morph cache holding a card with 2 unknown morphs and a card with 1
unknown morph. -/
def c1SmallCache : Nat → Option (List Morpheme) := fun cid =>
  if cid = 1 then some (mkUnknownMorphs 2)
  else if cid = 2 then some (mkUnknownMorphs 1)
  else none

/-- The empty priority table (no morph has a rank). -/
def noPriority : String → Option Nat := fun _ => none

/-- The empty card-morph cache. -/
def emptyCache : Nat → Option (List Morpheme) := fun _ => none

/-- Total number of occurrences of the three automatic state tags in a tag
list. -/
def autoTagCount (cfg : AnkiMorphsConfig) (ts : List String) : Nat :=
  ts.count cfg.tag_ready + ts.count cfg.tag_not_ready + ts.count cfg.tag_known_automatically

/-- Cache for the C3 counterexample: cards 1, 2 share sole unknown morph
`m1`; cards 3, 4 share sole unknown morph `m2`. -/
def c3Cache : Nat → Option (List Morpheme) := fun cid =>
  if cid = 1 ∨ cid = 2 then
    some [{ lemma' := "m1", inflection := "m1", highest_learning_interval := 0 }]
  else if cid = 3 ∨ cid = 4 then
    some [{ lemma' := "m2", inflection := "m2", highest_learning_interval := 0 }]
  else none

/-- Dues for the C3 counterexample. -/
def c3Dues : Nat → Nat := fun cid =>
  if cid = 1 then 10 else if cid = 2 then 20 else if cid = 3 then 5
  else if cid = 4 then 40 else 0

/-- Configuration for the C3 counterexample: offset 7, morph limit 0 (the
loop still processes limit+1 = 1 morph). -/
def cfgC3 : AnkiMorphsConfig :=
  { cfgDefault with recalc_due_offset := 7, recalc_number_of_morphs_to_offset := 0 }

/-- Configuration for the C3 witness: offset 7, morph limit 5 (large enough
for both morphs of `c3Cache`). -/
def cfgC3W : AnkiMorphsConfig :=
  { cfgDefault with recalc_due_offset := 7, recalc_number_of_morphs_to_offset := 5 }

/-- Cache for the C4 counterexample: cards 1 and 2 share the sole unknown
morph `m`. -/
def c4Cache : Nat → Option (List Morpheme) := fun cid =>
  if cid = 1 ∨ cid = 2 then
    some [{ lemma' := "m", inflection := "m", highest_learning_interval := 0 }]
  else none

/-- Scores for the C4 counterexample (scores are independent of dues). -/
def c4Scores : Nat → Nat := fun cid => if cid = 1 then 100 else if cid = 2 then 50 else 0

/-- Initial persisted dues for the C4 counterexample — they differ from the
computed scores. -/
def c4Dues : Nat → Nat := fun cid => if cid = 1 then 10 else if cid = 2 then 20 else 0

/-- Configuration for the C4 counterexample: offset 10, ample morph limit. -/
def cfgC4 : AnkiMorphsConfig :=
  { cfgDefault with recalc_due_offset := 10, recalc_number_of_morphs_to_offset := 10 }

/-! ## Theorems -/

/-! ### Scorer range and sentinel (C7, C8) -/

/-- Claim C7: for every input (any configuration, any card id, any card-morph
cache, any priority table), the score returned by
`get_card_score_and_unknowns_and_learning_status` lies in the closed interval
[0, MAX_SCORE] with MAX_SCORE = 2047483647 = `DEFAULT_SCORE`. -/
theorem score_always_in_range (cfg : AnkiMorphsConfig) (card_id : Nat)
    (cache : Nat → Option (List Morpheme)) (prio : String → Option Nat) :
    0 ≤ (get_card_score_and_unknowns_and_learning_status cfg card_id cache prio).1 ∧
    (get_card_score_and_unknowns_and_learning_status cfg card_id cache prio).1 ≤
      DEFAULT_SCORE := by
  refine ⟨Nat.zero_le _, ?_⟩
  unfold get_card_score_and_unknowns_and_learning_status
  cases cache card_id with
  | none => exact le_refl _
  | some ms =>
    simp only
    split
    · exact le_refl _
    · exact Nat.min_le_right _ _

/-- Claim C8: for every card id absent from the card-morph cache, the scorer
returns exactly `(DEFAULT_SCORE, [], false)` — the sentinel score, an empty
unknown list and `has_learning_morph = false`. -/
theorem score_cache_miss_sentinel (cfg : AnkiMorphsConfig) (card_id : Nat)
    (cache : Nat → Option (List Morpheme)) (prio : String → Option Nat)
    (h : cache card_id = none) :
    get_card_score_and_unknowns_and_learning_status cfg card_id cache prio =
      (DEFAULT_SCORE, [], false) := by
  unfold get_card_score_and_unknowns_and_learning_status
  rw [h]

/-- Witness for C8 at a concrete input: the empty cache misses card 7 and the
scorer returns the sentinel triple. -/
theorem score_cache_miss_sentinel_witness :
    emptyCache 7 = none ∧
    get_card_score_and_unknowns_and_learning_status cfgDefault 7 emptyCache noPriority =
      (DEFAULT_SCORE, [], false) :=
  ⟨rfl, score_cache_miss_sentinel cfgDefault 7 emptyCache noPriority rfl⟩

/-! ### Jieba wrapper (C9, C10) -/

/-- Claim C9: every morpheme returned by the jieba segmentation wrapper has
its inflection equal to its lemma. -/
theorem jieba_inflection_eq_lemma (segments : List (List Char)) (m : RawMorpheme)
    (hm : m ∈ get_morphemes_jieba segments) : m.inflection = m.lemma' := by
  induction segments with
  | nil => simp [get_morphemes_jieba] at hm
  | cons w ws ih =>
    unfold get_morphemes_jieba at hm
    split at hm
    · exact ih hm
    · rcases List.mem_cons.mp hm with h | h
      · rw [h]
      · exact ih h

/-- Witness for C9 at a concrete input: segmenting `["中", "a中"]` yields the
morpheme for `中`, whose inflection equals its lemma. -/
theorem jieba_inflection_eq_lemma_witness :
    ({ lemma' := ['中'], inflection := ['中'] } : RawMorpheme) ∈
      get_morphemes_jieba [['中'], ['a', '中']] ∧
    ({ lemma' := ['中'], inflection := ['中'] } : RawMorpheme).inflection =
      ({ lemma' := ['中'], inflection := ['中'] } : RawMorpheme).lemma' :=
  ⟨by decide,
   jieba_inflection_eq_lemma [['中'], ['a', '中']] { lemma' := ['中'], inflection := ['中'] }
     (by decide)⟩

/-- Every morpheme returned by the jieba wrapper passed the full-CJK check:
all characters of its lemma are inside the configured ranges. -/
lemma mem_get_morphemes_jieba_cjk (segments : List (List Char)) (m : RawMorpheme)
    (hm : m ∈ get_morphemes_jieba segments) (ch : Char) (hch : ch ∈ m.lemma') :
    char_found_in_cjk_ranges ch = true := by
  induction segments with
  | nil => simp [get_morphemes_jieba] at hm
  | cons w ws ih =>
    unfold get_morphemes_jieba at hm
    split at hm
    · exact ih hm
    · next hok =>
      rcases List.mem_cons.mp hm with h | h
      · rw [not_not] at hok
        unfold text_contains_only_cjk_ranges at hok
        have := List.all_eq_true.mp hok
        have hchw : ch ∈ w := by rw [h] at hch; exact hch
        exact this ch hchw
      · exact ih h

/-- Claim C10: every morpheme returned by the jieba wrapper has a lemma all of
whose characters lie in the configured CJK-ideograph ranges; any segment
containing a character outside the ranges is dropped (no returned morpheme has
it as lemma); and the empty segment passes the check vacuously. -/
theorem jieba_lemma_only_cjk (segments : List (List Char)) :
    (∀ m ∈ get_morphemes_jieba segments, ∀ ch ∈ m.lemma', char_found_in_cjk_ranges ch = true) ∧
    (∀ w ∈ segments, (∃ ch ∈ w, char_found_in_cjk_ranges ch = false) →
      ∀ m ∈ get_morphemes_jieba segments, m.lemma' ≠ w) ∧
    text_contains_only_cjk_ranges [] = true := by
  refine ⟨fun m hm ch hch => mem_get_morphemes_jieba_cjk segments m hm ch hch, ?_, rfl⟩
  intro w _ hbad m hm heq
  rcases hbad with ⟨ch, hchw, hchbad⟩
  have : char_found_in_cjk_ranges ch = true := by
    apply mem_get_morphemes_jieba_cjk segments m hm
    rw [heq]; exact hchw
  rw [this] at hchbad
  exact Bool.noConfusion hchbad

/-- Witness for C10 at a concrete input: in the output for segments
`[中, a中]` the morpheme `中` has an all-CJK lemma, and the mixed segment
`a中` is dropped. -/
theorem jieba_lemma_only_cjk_witness :
    (∀ ch ∈ ({ lemma' := ['中'], inflection := ['中'] } : RawMorpheme).lemma',
      char_found_in_cjk_ranges ch = true) ∧
    ({ lemma' := ['中'], inflection := ['中'] } : RawMorpheme).lemma' ≠ ['a', '中'] :=
  ⟨(jieba_lemma_only_cjk [['中'], ['a', '中']]).1 { lemma' := ['中'], inflection := ['中'] }
      (by decide),
   (jieba_lemma_only_cjk [['中'], ['a', '中']]).2.1 ['a', '中'] (by decide)
      ⟨'a', by decide, by decide⟩ { lemma' := ['中'], inflection := ['中'] } (by decide)⟩

/-! ### Tag/state updater (C5, C6) -/

/-- `remove_exclusive_tags` on the three automatic tags is the chain of three
first-occurrence erasures. -/
lemma remove_exclusive_tags_eq (tags : List String) (a b c : String) :
    remove_exclusive_tags tags [a, b, c] = ((tags.erase a).erase b).erase c := by
  have step : ∀ (ts : List String) (t : String),
      (if t ∈ ts then ts.erase t else ts) = ts.erase t := by
    intro ts t
    split
    · rfl
    · next h => rw [List.erase_of_not_mem h]
  simp only [remove_exclusive_tags, List.foldl, step]

/-- Claim C5 (amended): when the known-manually tag is present, the updater
removes (one occurrence of) each of the three automatic tags and touches
nothing else: every tag other than the three automatic ones keeps its exact
multiplicity, no tag is added (the result is a sublist of the input), and the
queue state is unchanged — for every unknown-morph count. -/
theorem known_manually_frame (cfg : AnkiMorphsConfig) (tags : List String) (queue : Int)
    (unknowns : Nat) (has_learning_morphs : Bool)
    (h : cfg.tag_known_manually ∈ tags) :
    (∀ t : String, t ≠ cfg.tag_ready → t ≠ cfg.tag_not_ready →
      t ≠ cfg.tag_known_automatically →
      (_update_tags_and_queue cfg tags queue unknowns has_learning_morphs).1.count t =
        tags.count t) ∧
    List.Sublist (_update_tags_and_queue cfg tags queue unknowns has_learning_morphs).1 tags ∧
    (_update_tags_and_queue cfg tags queue unknowns has_learning_morphs).2 = queue := by
  unfold _update_tags_and_queue
  rw [if_pos h]
  rw [remove_exclusive_tags_eq]
  refine ⟨?_, ?_, rfl⟩
  · intro t h1 h2 h3
    rw [List.count_erase_of_ne h3, List.count_erase_of_ne h2, List.count_erase_of_ne h1]
  · exact ((List.erase_sublist _ _).trans (List.erase_sublist _ _)).trans
      (List.erase_sublist _ _)

/-- Witness for C5 (amended) at a concrete input: with tags
`[am-known-manually, x, am-ready]` the updater keeps `x` and
`am-known-manually`, returns a sublist, and leaves the queue alone. -/
theorem known_manually_frame_witness :
    "am-known-manually" ∈ (["am-known-manually", "x", "am-ready"] : List String) ∧
    (_update_tags_and_queue cfgDefault ["am-known-manually", "x", "am-ready"] 0 3 false).1.count
      "x" = (["am-known-manually", "x", "am-ready"] : List String).count "x" ∧
    List.Sublist
      (_update_tags_and_queue cfgDefault ["am-known-manually", "x", "am-ready"] 0 3 false).1
      ["am-known-manually", "x", "am-ready"] ∧
    (_update_tags_and_queue cfgDefault ["am-known-manually", "x", "am-ready"] 0 3 false).2 = 0 :=
  ⟨by decide,
   (known_manually_frame cfgDefault ["am-known-manually", "x", "am-ready"] 0 3 false
      (by decide)).1 "x" (by decide) (by decide) (by decide),
   (known_manually_frame cfgDefault ["am-known-manually", "x", "am-ready"] 0 3 false
      (by decide)).2.1,
   (known_manually_frame cfgDefault ["am-known-manually", "x", "am-ready"] 0 3 false
      (by decide)).2.2⟩

/-- Counterexample to C5 as stated: with tags
`[am-known-manually, am-ready]` (and any unknown count, here 3) the updater
removes `am-ready`, so a tag other than known-manually that was present
before the call is no longer present after it. -/
theorem known_manually_counterexample :
    "am-ready" ∈ (["am-known-manually", "am-ready"] : List String) ∧
    "am-ready" ∉ (_update_tags_and_queue cfgDefault ["am-known-manually", "am-ready"]
      0 3 false).1 := by
  decide

/-- Counting the first of three pairwise applied erasures. -/
lemma count_erase3_first (l : List String) (a b c : String) (hab : a ≠ b) (hac : a ≠ c) :
    (((l.erase a).erase b).erase c).count a = l.count a - 1 := by
  rw [List.count_erase_of_ne hac, List.count_erase_of_ne hab, List.count_erase_self]

/-- Counting the second of three pairwise applied erasures. -/
lemma count_erase3_second (l : List String) (a b c : String) (hba : b ≠ a) (hbc : b ≠ c) :
    (((l.erase a).erase b).erase c).count b = l.count b - 1 := by
  rw [List.count_erase_of_ne hbc, List.count_erase_self, List.count_erase_of_ne hba]

/-- Counting the third of three pairwise applied erasures. -/
lemma count_erase3_third (l : List String) (a b c : String) (hca : c ≠ a) (hcb : c ≠ b) :
    (((l.erase a).erase b).erase c).count c = l.count c - 1 := by
  rw [List.count_erase_self, List.count_erase_of_ne hcb, List.count_erase_of_ne hca]

/-- Count of an element in a list with one element appended. -/
lemma count_append_singleton (l : List String) (t u : String) :
    (l ++ [u]).count t = l.count t + if u = t then 1 else 0 := by
  rw [List.count_append, List.count_singleton']

/-- Claim C6 (amended): the updater preserves mutual exclusivity of the three
automatic tags.  For every input tag list in which the three automatic tags
occur at most once in total (the mutual-exclusion invariant), and for every
unknown-morph count, after the update the three automatic tags still occur at
most once in total; in particular at most one of them is present. -/
theorem automatic_tags_mutually_exclusive (cfg : AnkiMorphsConfig) (tags : List String)
    (queue : Int) (unknowns : Nat) (has_learning_morphs : Bool)
    (hd1 : cfg.tag_ready ≠ cfg.tag_not_ready)
    (hd2 : cfg.tag_ready ≠ cfg.tag_known_automatically)
    (hd3 : cfg.tag_not_ready ≠ cfg.tag_known_automatically)
    (hcount : autoTagCount cfg tags ≤ 1) :
    autoTagCount cfg (_update_tags_and_queue cfg tags queue unknowns has_learning_morphs).1
      ≤ 1 ∧
    ¬(cfg.tag_ready ∈ (_update_tags_and_queue cfg tags queue unknowns has_learning_morphs).1 ∧
      cfg.tag_not_ready ∈
        (_update_tags_and_queue cfg tags queue unknowns has_learning_morphs).1) ∧
    ¬(cfg.tag_ready ∈ (_update_tags_and_queue cfg tags queue unknowns has_learning_morphs).1 ∧
      cfg.tag_known_automatically ∈
        (_update_tags_and_queue cfg tags queue unknowns has_learning_morphs).1) ∧
    ¬(cfg.tag_not_ready ∈
        (_update_tags_and_queue cfg tags queue unknowns has_learning_morphs).1 ∧
      cfg.tag_known_automatically ∈
        (_update_tags_and_queue cfg tags queue unknowns has_learning_morphs).1) := by
  have key : autoTagCount cfg
      (_update_tags_and_queue cfg tags queue unknowns has_learning_morphs).1 ≤ 1 := by
    unfold autoTagCount at hcount ⊢
    unfold _update_tags_and_queue
    by_cases hkm : cfg.tag_known_manually ∈ tags
    · rw [if_pos hkm, remove_exclusive_tags_eq]
      simp only
      rw [count_erase3_first _ _ _ _ hd1 hd2, count_erase3_second _ _ _ _ hd1.symm hd3,
        count_erase3_third _ _ _ _ hd2.symm hd3.symm]
      omega
    · rw [if_neg hkm]
      by_cases h0 : unknowns = 0
      · rw [if_pos h0]
        simp only
        by_cases hka : cfg.tag_known_automatically ∉ tags
        · rw [if_pos hka]
          have hka0 : tags.count cfg.tag_known_automatically = 0 :=
            List.count_eq_zero_of_not_mem hka
          simp only [remove_exclusive_tags_eq]
          split
          · rw [count_append_singleton, count_append_singleton, count_append_singleton,
              count_erase3_first _ _ _ _ hd1 hd2, count_erase3_second _ _ _ _ hd1.symm hd3,
              count_erase3_third _ _ _ _ hd2.symm hd3.symm,
              if_neg (fun hh => hd2 hh.symm), if_neg (fun hh => hd3 hh.symm), if_pos rfl]
            omega
          · rw [count_erase3_first _ _ _ _ hd1 hd2, count_erase3_second _ _ _ _ hd1.symm hd3,
              count_erase3_third _ _ _ _ hd2.symm hd3.symm]
            omega
        · rw [if_neg hka]
          exact hcount
      · rw [if_neg h0]
        by_cases h1 : unknowns = 1
        · rw [if_pos h1]
          by_cases hr : cfg.tag_ready ∉ tags
          · rw [if_pos hr, remove_exclusive_tags_eq]
            simp only
            have hr0 : tags.count cfg.tag_ready = 0 := List.count_eq_zero_of_not_mem hr
            rw [count_append_singleton, count_append_singleton, count_append_singleton,
              count_erase3_first _ _ _ _ hd1 hd2, count_erase3_second _ _ _ _ hd1.symm hd3,
              count_erase3_third _ _ _ _ hd2.symm hd3.symm,
              if_pos rfl, if_neg hd1, if_neg hd2]
            omega
          · rw [if_neg hr]
            exact hcount
        · rw [if_neg h1]
          by_cases hn : cfg.tag_not_ready ∉ tags
          · rw [if_pos hn, remove_exclusive_tags_eq]
            simp only
            have hn0 : tags.count cfg.tag_not_ready = 0 := List.count_eq_zero_of_not_mem hn
            rw [count_append_singleton, count_append_singleton, count_append_singleton,
              count_erase3_first _ _ _ _ hd1 hd2, count_erase3_second _ _ _ _ hd1.symm hd3,
              count_erase3_third _ _ _ _ hd2.symm hd3.symm,
              if_neg hd1.symm, if_pos rfl, if_neg hd3]
            omega
          · rw [if_neg hn]
            exact hcount
  refine ⟨key, ?_, ?_, ?_⟩ <;> rintro ⟨hx, hy⟩ <;>
    (have cx := List.count_pos_iff.mpr hx
     have cy := List.count_pos_iff.mpr hy
     unfold autoTagCount at key
     omega)

/-- Witness for C6 (amended) at a concrete input: starting from the single
tag `am-not-ready` with one unknown morph, at most one automatic tag remains
and no two are present together. -/
theorem automatic_tags_mutually_exclusive_witness :
    autoTagCount cfgDefault (["am-not-ready"] : List String) ≤ 1 ∧
    autoTagCount cfgDefault
      (_update_tags_and_queue cfgDefault ["am-not-ready"] 0 1 false).1 ≤ 1 :=
  ⟨by decide,
   (automatic_tags_mutually_exclusive cfgDefault ["am-not-ready"] 0 1 false
      (by decide) (by decide) (by decide) (by decide)).1⟩

/-- Counterexample to C6 as stated: with both `am-known-automatically` and
`am-ready` already present and zero unknown morphs (known-manually absent),
the updater leaves the tag list unchanged, so two automatic tags remain
present after the update. -/
theorem automatic_tags_counterexample :
    (_update_tags_and_queue cfgDefault ["am-known-automatically", "am-ready"] 0 0 false).1 =
      ["am-known-automatically", "am-ready"] ∧
    "am-known-automatically" ∈
      (_update_tags_and_queue cfgDefault ["am-known-automatically", "am-ready"] 0 0 false).1 ∧
    "am-ready" ∈
      (_update_tags_and_queue cfgDefault ["am-known-automatically", "am-ready"] 0 0 false).1 ∧
    "am-known-automatically" ≠ "am-ready" := by
  decide

/-! ### Frequency file parsing (C2) -/

/-- The frequency-file loop keeps reading far past row 50,000: through a run
of `n` filler rows followed by a marker row, starting at index `i`, the
marker row is stored with rank `i + n` whenever `i + n ≤ DEFAULT_SCORE`. -/
lemma buildPriorityAux_reads_marker (n : Nat) : ∀ (i : Nat) (acc : List (String × Nat)),
    i + n ≤ DEFAULT_SCORE →
    priorityLookup "by"
      (buildPriorityAux i (List.replicate n ("a", "x") ++ [("b", "y")]) acc) =
      some (i + n) := by
  induction n with
  | zero =>
    intro i acc h
    rw [List.replicate, List.nil_append]
    unfold buildPriorityAux
    rw [if_neg (by omega)]
    unfold buildPriorityAux
    have hby : (("b", "y").1 ++ ("b", "y").2 : String) = "by" := rfl
    rw [hby]
    simp [priorityLookup]
  | succ n ih =>
    intro i acc h
    rw [List.replicate_succ, List.cons_append]
    unfold buildPriorityAux
    rw [if_neg (by omega)]
    rw [show i + (n + 1) = (i + 1) + n by omega]
    exact ih (i + 1) _ (by omega)

/-- Claim C2 (failing input): `_get_morph_frequency_file_priority` does not
stop after 50,000 data rows.  On a file with a header row and 50,001 data
rows, the 50,001st data row (index 50,000) is read and stored in the table
with rank 50,000 — a rank that is not strictly less than 50,000.  The loop's
break compares the row index against `_DEFAULT_SCORE` = 2,047,483,647
although its own comment (and the spec) put the cutoff at 50,000. -/
theorem frequency_file_reads_past_50000 :
    priorityLookup "by"
      (_get_morph_frequency_file_priority
        (("lemma", "inflection") :: (List.replicate 50000 ("a", "x") ++ [("b", "y")]))) =
      some 50000 := by
  unfold _get_morph_frequency_file_priority
  have hdrop :
      ((("lemma", "inflection") :: (List.replicate 50000 ("a", "x") ++ [("b", "y")])) :
        List (String × String)).drop 1 = List.replicate 50000 ("a", "x") ++ [("b", "y")] := rfl
  rw [hdrop]
  have hmark := buildPriorityAux_reads_marker 50000 0 [] (by decide)
  rw [Nat.zero_add] at hmark
  exact hmark

/-! ### Scorer monotonicity in the unknown count (C1) -/

/-- The unknown-morph accumulator of the scorer's loop collects exactly the
morphs with learning interval 0, in order, after the initial contents. -/
lemma scoreLoop_unknowns (cfg : AnkiMorphsConfig) (prio : String → Option Nat)
    (ms : List Morpheme) : ∀ (u : List Morpheme) (hl : Bool) (s : Nat),
    (ms.foldl (scoreLoopStep cfg prio) (u, hl, s)).1 =
      u ++ ms.filter (fun m => m.highest_learning_interval = 0) := by
  induction ms with
  | nil => intro u hl s; simp
  | cons m ms ih =>
    intro u hl s
    rw [List.foldl_cons]
    by_cases h0 : m.highest_learning_interval = 0
    · rw [show scoreLoopStep cfg prio (u, hl, s) m =
          (u ++ [m],
            if m.highest_learning_interval ≠ 0 ∧
                m.highest_learning_interval < cfg.recalc_interval_for_known then true else hl,
            match prio m.lemma_and_inflection with
            | none => MORPH_UNKNOWN_PENALTY - 1
            | some p => s + p) by simp [scoreLoopStep, h0]]
      rw [ih]
      simp [List.filter_cons, h0]
    · rw [show scoreLoopStep cfg prio (u, hl, s) m =
          (u,
            if m.highest_learning_interval ≠ 0 ∧
                m.highest_learning_interval < cfg.recalc_interval_for_known then true else hl,
            match prio m.lemma_and_inflection with
            | none => MORPH_UNKNOWN_PENALTY - 1
            | some p => s + p) by simp [scoreLoopStep, h0]]
      rw [ih]
      simp [List.filter_cons, h0]

/-- The scorer on a card present in the cache with at least one unknown
morph: the score is the accumulated priority penalty — capped at
`MORPH_UNKNOWN_PENALTY - 1` — plus the unknown count times
`MORPH_UNKNOWN_PENALTY`, clamped at `DEFAULT_SCORE`. -/
lemma score_formula (cfg : AnkiMorphsConfig) (cid : Nat)
    (cache : Nat → Option (List Morpheme)) (prio : String → Option Nat)
    (ms : List Morpheme) (hc : cache cid = some ms)
    (hk : (ms.filter (fun m => m.highest_learning_interval = 0)).length ≠ 0) :
    ∃ p ≤ MORPH_UNKNOWN_PENALTY - 1,
      (get_card_score_and_unknowns_and_learning_status cfg cid cache prio).1 =
        min (p + (ms.filter (fun m => m.highest_learning_interval = 0)).length *
          MORPH_UNKNOWN_PENALTY) DEFAULT_SCORE := by
  unfold get_card_score_and_unknowns_and_learning_status
  rw [hc]
  simp only
  have hu := scoreLoop_unknowns cfg prio ms [] false 0
  rw [List.nil_append] at hu
  rw [if_neg (fun hcon => hk (by rw [← hu]; exact hcon.1))]
  refine ⟨if MORPH_UNKNOWN_PENALTY ≤ (ms.foldl (scoreLoopStep cfg prio) ([], false, 0)).2.2
      then MORPH_UNKNOWN_PENALTY - 1
      else (ms.foldl (scoreLoopStep cfg prio) ([], false, 0)).2.2, ?_, ?_⟩
  · split
    · exact le_refl _
    · next hs => omega
  · rw [hu]

/-- Claim C1 (amended): for two cached cards with `k1 > k2 ≥ 1` unknown
morphs, the first card's score is strictly greater than the second card's,
regardless of the priority-table ranks of their morphs, PROVIDED the second
card's score lies strictly below MAX_SCORE; when both pre-clamp totals reach
the clamp, the two scores tie at MAX_SCORE instead. -/
theorem score_strictly_reflects_unknowns (cfg : AnkiMorphsConfig)
    (cache : Nat → Option (List Morpheme)) (prio : String → Option Nat)
    (c1 c2 : Nat) (ms1 ms2 : List Morpheme)
    (h1 : cache c1 = some ms1) (h2 : cache c2 = some ms2)
    (hk : (ms2.filter (fun m => m.highest_learning_interval = 0)).length <
      (ms1.filter (fun m => m.highest_learning_interval = 0)).length)
    (hk2 : 1 ≤ (ms2.filter (fun m => m.highest_learning_interval = 0)).length)
    (hlt : (get_card_score_and_unknowns_and_learning_status cfg c2 cache prio).1 <
      DEFAULT_SCORE) :
    (get_card_score_and_unknowns_and_learning_status cfg c2 cache prio).1 <
      (get_card_score_and_unknowns_and_learning_status cfg c1 cache prio).1 := by
  obtain ⟨p1, hp1, e1⟩ := score_formula cfg c1 cache prio ms1 h1 (by omega)
  obtain ⟨p2, hp2, e2⟩ := score_formula cfg c2 cache prio ms2 h2 (by omega)
  rw [e1, e2]
  rw [e2] at hlt
  have hU : 0 < MORPH_UNKNOWN_PENALTY := by decide
  set k1 := (ms1.filter (fun m => m.highest_learning_interval = 0)).length with hk1def
  set k2 := (ms2.filter (fun m => m.highest_learning_interval = 0)).length with hk2def
  have hm2 : p2 + k2 * MORPH_UNKNOWN_PENALTY < DEFAULT_SCORE := by
    by_contra hcon
    rw [Nat.min_eq_right (by omega)] at hlt
    exact lt_irrefl _ hlt
  rw [Nat.min_eq_left (le_of_lt hm2)]
  have hmul : (k2 + 1) * MORPH_UNKNOWN_PENALTY ≤ k1 * MORPH_UNKNOWN_PENALTY :=
    Nat.mul_le_mul_right _ (by omega)
  rw [Nat.succ_mul] at hmul
  apply lt_min
  · omega
  · exact hm2

/-- Witness for C1 (amended) at a concrete input: a card with 2 unknown
morphs scores strictly above a card with 1 unknown morph (whose score
999,999 is below the clamp). -/
theorem score_strictly_reflects_unknowns_witness :
    ((mkUnknownMorphs 1).filter (fun m => m.highest_learning_interval = 0)).length <
      ((mkUnknownMorphs 2).filter (fun m => m.highest_learning_interval = 0)).length ∧
    (get_card_score_and_unknowns_and_learning_status cfgDefault 2 c1SmallCache noPriority).1 <
      (get_card_score_and_unknowns_and_learning_status cfgDefault 1 c1SmallCache
        noPriority).1 :=
  ⟨by decide,
   score_strictly_reflects_unknowns cfgDefault c1SmallCache noPriority 1 2
     (mkUnknownMorphs 2) (mkUnknownMorphs 1) rfl rfl (by decide) (by decide) (by decide)⟩

/-- The scorer's loop on a list of all-unknown morphs with the empty priority
table: every morph is appended to the unknown list and the score is reset to
`MORPH_UNKNOWN_PENALTY - 1` by every (unranked) morph. -/
lemma scoreLoop_all_unknown (cfg : AnkiMorphsConfig) (ms : List Morpheme)
    (hms : ∀ m ∈ ms, m.highest_learning_interval = 0) :
    ∀ (u : List Morpheme) (hl : Bool) (s : Nat),
    ms.foldl (scoreLoopStep cfg noPriority) (u, hl, s) =
      (u ++ ms, hl, if ms.isEmpty then s else MORPH_UNKNOWN_PENALTY - 1) := by
  induction ms with
  | nil => intro u hl s; simp
  | cons m ms ih =>
    intro u hl s
    have h0 : m.highest_learning_interval = 0 := hms m (List.mem_cons_self m ms)
    rw [List.foldl_cons]
    rw [show scoreLoopStep cfg noPriority (u, hl, s) m =
        (u ++ [m], hl, MORPH_UNKNOWN_PENALTY - 1) by
      simp [scoreLoopStep, h0, noPriority]]
    rw [ih (fun m' hm' => hms m' (List.mem_cons_of_mem m hm'))]
    simp

/-- The scorer on a cached, nonempty, all-unknown card with the empty
priority table returns the clamp of `MORPH_UNKNOWN_PENALTY - 1 + k *
MORPH_UNKNOWN_PENALTY`, the full morph list as unknowns, and no learning
morph. -/
lemma score_all_unknown_eq (cfg : AnkiMorphsConfig) (cid : Nat)
    (cache : Nat → Option (List Morpheme)) (ms : List Morpheme)
    (hc : cache cid = some ms)
    (hms : ∀ m ∈ ms, m.highest_learning_interval = 0) (hne : ms ≠ []) :
    get_card_score_and_unknowns_and_learning_status cfg cid cache noPriority =
      (min (MORPH_UNKNOWN_PENALTY - 1 + ms.length * MORPH_UNKNOWN_PENALTY) DEFAULT_SCORE,
        ms, false) := by
  unfold get_card_score_and_unknowns_and_learning_status
  rw [hc]
  simp only
  rw [scoreLoop_all_unknown cfg ms hms [] false 0]
  simp only [List.nil_append]
  rw [if_neg (fun hcon => hne (List.length_eq_zero.mp hcon.1))]
  have hemp : ms.isEmpty = false := by
    cases ms with
    | nil => exact absurd rfl hne
    | cons a l => rfl
  rw [hemp]
  rw [if_neg (fun h => Bool.noConfusion h)]
  rw [if_neg (by decide)]

set_option maxRecDepth 10000 in
/-- Counterexample to C1 as stated: a card with 4096 unknown morphs and a
card with 4095 unknown morphs (`4096 > 4095 ≥ 1`) receive the SAME score —
both pre-clamp totals exceed MAX_SCORE, so both are clamped to
`DEFAULT_SCORE` — refuting strict monotonicity in the unknown count. -/
theorem score_ties_at_max_counterexample :
    (get_card_score_and_unknowns_and_learning_status cfgDefault 1 c1Cache
      noPriority).2.1.length = 4096 ∧
    (get_card_score_and_unknowns_and_learning_status cfgDefault 2 c1Cache
      noPriority).2.1.length = 4095 ∧
    (get_card_score_and_unknowns_and_learning_status cfgDefault 1 c1Cache noPriority).1 =
      (get_card_score_and_unknowns_and_learning_status cfgDefault 2 c1Cache noPriority).1 ∧
    ¬ (get_card_score_and_unknowns_and_learning_status cfgDefault 2 c1Cache noPriority).1 <
      (get_card_score_and_unknowns_and_learning_status cfgDefault 1 c1Cache noPriority).1 := by
  have hall : ∀ n : Nat, ∀ m ∈ mkUnknownMorphs n, m.highest_learning_interval = 0 := by
    intro n m hm
    simp only [mkUnknownMorphs, List.mem_map] at hm
    obtain ⟨i, _, rfl⟩ := hm
    rfl
  have hlen : ∀ n : Nat, (mkUnknownMorphs n).length = n := by
    intro n
    simp [mkUnknownMorphs]
  have hne : ∀ n : Nat, n ≠ 0 → mkUnknownMorphs n ≠ [] := by
    intro n hn hcon
    apply hn
    rw [← hlen n, hcon]
    rfl
  have e1 := score_all_unknown_eq cfgDefault 1 c1Cache (mkUnknownMorphs 4096) rfl
    (hall 4096) (hne 4096 (by omega))
  have e2 := score_all_unknown_eq cfgDefault 2 c1Cache (mkUnknownMorphs 4095) rfl
    (hall 4095) (hne 4095 (by omega))
  rw [e1, e2]
  refine ⟨hlen 4096, hlen 4095, ?_, ?_⟩
  · simp only [hlen]
    rw [Nat.min_eq_right (by norm_num [MORPH_UNKNOWN_PENALTY, DEFAULT_SCORE]),
      Nat.min_eq_right (by norm_num [MORPH_UNKNOWN_PENALTY, DEFAULT_SCORE])]
  · simp only [hlen]
    rw [Nat.min_eq_right (by norm_num [MORPH_UNKNOWN_PENALTY, DEFAULT_SCORE]),
      Nat.min_eq_right (by norm_num [MORPH_UNKNOWN_PENALTY, DEFAULT_SCORE])]
    exact lt_irrefl _

/-! ### Offset balancer (C3, C4) -/

/-- Counterexample to C3 as stated: with morph limit 0 (the loop processes
limit+1 = 1 morph), morph `m1` — sole unknown of cards 1 (due 10) and
2 (due 20) — is beyond the cut (morph `m2`'s earliest card has due 5 and is
sorted first), so sibling card 2 keeps due 20 instead of receiving
20 + offset. -/
theorem offset_limit_counterexample :
    soleKeyOf c3Cache 1 = some ("m1", "m1") ∧
    soleKeyOf c3Cache 2 = some ("m1", "m1") ∧
    c3Dues 1 < c3Dues 2 ∧
    commitDues c3Dues
      (_add_offsets_to_new_cards cfgC3 c3Cache c3Dues [1, 2, 3, 4] (fun _ => none)) 2 = 20 ∧
    (20 : Nat) ≠ min (c3Dues 2 + cfgC3.recalc_due_offset) DEFAULT_SCORE := by
  decide

/-- Counterexample to C4 as stated: from persisted dues (10, 20) and scores
(100, 50) for two cards sharing sole unknown morph `m`, the first
score-and-balance pass produces dues (100, 60); running it a second time on
those dues produces (110, 50), changing both cards — the earliest-due choice
flips once the dues reflect the scores. -/
theorem offset_balancer_not_idempotent_counterexample :
    recalcPass cfgC4 c4Cache c4Scores [1, 2] c4Dues 1 = 100 ∧
    recalcPass cfgC4 c4Cache c4Scores [1, 2] c4Dues 2 = 60 ∧
    recalcPass cfgC4 c4Cache c4Scores [1, 2]
        (recalcPass cfgC4 c4Cache c4Scores [1, 2] c4Dues) 1 = 110 ∧
    recalcPass cfgC4 c4Cache c4Scores [1, 2]
        (recalcPass cfgC4 c4Cache c4Scores [1, 2] c4Dues) 2 = 50 := by
  decide

/-! #### Association-list lemmas for `earliest_due_card_for_unknown_morph` -/

/-- Unfolding equation for lookup at a cons cell. -/
lemma lookupEarliest_cons (K : String × String) (e : (String × String) × Nat × Nat)
    (es : List ((String × String) × Nat × Nat)) :
    lookupEarliest K (e :: es) = if e.1 = K then some e.2 else lookupEarliest K es := rfl

/-- Unfolding equation for update at a cons cell. -/
lemma updateEarliest_cons (K : String × String) (v : Nat × Nat)
    (e : (String × String) × Nat × Nat) (es : List ((String × String) × Nat × Nat)) :
    updateEarliest K v (e :: es) =
      (if e.1 = K then (K, v) else e) :: updateEarliest K v es := by
  unfold updateEarliest
  rw [List.map_cons]

/-- Lookup distributes over append, preferring the left list. -/
lemma lookupEarliest_append (K : String × String)
    (l l' : List ((String × String) × Nat × Nat)) :
    lookupEarliest K (l ++ l') =
      ((lookupEarliest K l).orElse fun _ => lookupEarliest K l') := by
  induction l with
  | nil => rfl
  | cons e es ih =>
    rw [List.cons_append, lookupEarliest_cons, lookupEarliest_cons]
    by_cases h : e.1 = K
    · rw [if_pos h, if_pos h]
      rfl
    · rw [if_neg h, if_neg h]
      exact ih

/-- Lookup of the updated key returns the new value when the key was
present. -/
lemma lookupEarliest_update_self (K : String × String) (v : Nat × Nat)
    (l : List ((String × String) × Nat × Nat)) :
    lookupEarliest K (updateEarliest K v l) = (lookupEarliest K l).map fun _ => v := by
  induction l with
  | nil => rfl
  | cons e es ih =>
    rw [updateEarliest_cons]
    by_cases h : e.1 = K
    · rw [if_pos h, lookupEarliest_cons, lookupEarliest_cons, if_pos h]
      simp
    · rw [if_neg h, lookupEarliest_cons, lookupEarliest_cons, if_neg h, if_neg h]
      exact ih

/-- Lookup of a different key is untouched by an update. -/
lemma lookupEarliest_update_ne (K K' : String × String) (v : Nat × Nat)
    (l : List ((String × String) × Nat × Nat)) (h : K' ≠ K) :
    lookupEarliest K' (updateEarliest K v l) = lookupEarliest K' l := by
  induction l with
  | nil => rfl
  | cons e es ih =>
    rw [updateEarliest_cons]
    by_cases he : e.1 = K
    · rw [if_pos he, lookupEarliest_cons, lookupEarliest_cons]
      have h1 : ¬ ((K, v) : (String × String) × Nat × Nat).1 = K' := fun hc => h hc.symm
      have h2 : ¬ e.1 = K' := fun hc => h ((he ▸ hc).symm)
      rw [if_neg h1, if_neg h2]
      exact ih
    · rw [if_neg he, lookupEarliest_cons, lookupEarliest_cons]
      by_cases h3 : e.1 = K'
      · rw [if_pos h3, if_pos h3]
      · rw [if_neg h3, if_neg h3]
        exact ih

/-- An update keeps the key sequence unchanged. -/
lemma updateEarliest_keys (K : String × String) (v : Nat × Nat)
    (l : List ((String × String) × Nat × Nat)) :
    (updateEarliest K v l).map Prod.fst = l.map Prod.fst := by
  induction l with
  | nil => rfl
  | cons e es ih =>
    rw [updateEarliest_cons, List.map_cons, List.map_cons, ih]
    by_cases h : e.1 = K
    · rw [if_pos h]
      simp [h]
    · rw [if_neg h]

/-- Lookup fails exactly when the key is absent from the key sequence. -/
lemma lookupEarliest_eq_none (K : String × String)
    (l : List ((String × String) × Nat × Nat)) :
    lookupEarliest K l = none ↔ K ∉ l.map Prod.fst := by
  induction l with
  | nil => simp [lookupEarliest]
  | cons e es ih =>
    rw [lookupEarliest_cons, List.map_cons]
    by_cases h : e.1 = K
    · rw [if_pos h]
      simp [h]
    · rw [if_neg h, ih]
      simp [Ne.symm h]

/-- A successful lookup exhibits a member of the list. -/
lemma lookupEarliest_mem (K : String × String) (v : Nat × Nat)
    (l : List ((String × String) × Nat × Nat)) (h : lookupEarliest K l = some v) :
    (K, v) ∈ l := by
  induction l with
  | nil => exact absurd h (by simp [lookupEarliest])
  | cons e es ih =>
    rw [lookupEarliest_cons] at h
    split at h
    · next he =>
      rw [Option.some_inj] at h
      have : (K, v) = e := by
        rw [← he, ← h]
      rw [this]
      exact List.mem_cons_self e es
    · exact List.mem_cons_of_mem e (ih h)

/-- When the key sequence has no duplicates, membership determines the
lookup. -/
lemma lookupEarliest_of_mem_nodup (K : String × String) (v : Nat × Nat)
    (l : List ((String × String) × Nat × Nat)) (hnd : (l.map Prod.fst).Nodup)
    (h : (K, v) ∈ l) : lookupEarliest K l = some v := by
  induction l with
  | nil => exact absurd h (List.not_mem_nil _)
  | cons e es ih =>
    rw [List.map_cons, List.nodup_cons] at hnd
    rw [lookupEarliest_cons]
    rcases List.mem_cons.mp h with he | he
    · rw [← he]
      rw [if_pos rfl]
    · split
      · next heq =>
        exfalso
        apply hnd.1
        rw [heq]
        exact List.mem_map_of_mem Prod.fst he
      · exact ih hnd.2 he

/-- Association lists with the same duplicate-free key sequence and the same
lookups are equal. -/
lemma assoc_ext (l₁ : List ((String × String) × Nat × Nat)) :
    ∀ (l₂ : List ((String × String) × Nat × Nat)),
    l₁.map Prod.fst = l₂.map Prod.fst → (l₁.map Prod.fst).Nodup →
    (∀ K, lookupEarliest K l₁ = lookupEarliest K l₂) → l₁ = l₂ := by
  induction l₁ with
  | nil =>
    intro l₂ hk _ _
    cases l₂ with
    | nil => rfl
    | cons e es => exact absurd hk (by simp)
  | cons e es ih =>
    intro l₂ hk hnd hl
    cases l₂ with
    | nil => exact absurd hk (by simp)
    | cons f fs =>
      rw [List.map_cons, List.map_cons] at hk
      injection hk with hkey hktail
      rw [List.map_cons, List.nodup_cons] at hnd
      have hval : e.2 = f.2 := by
        have h1 := hl e.1
        rw [lookupEarliest_cons, lookupEarliest_cons, if_pos rfl, if_pos hkey.symm] at h1
        exact Option.some_inj.mp h1
      have hrest : es = fs := by
        apply ih fs hktail hnd.2
        intro K
        by_cases hK : K = e.1
        · have h1 : lookupEarliest K es = none := by
            rw [lookupEarliest_eq_none, hK]
            exact hnd.1
          have h2 : lookupEarliest K fs = none := by
            rw [lookupEarliest_eq_none, ← hktail, hK]
            exact hnd.1
          rw [h1, h2]
        · have h1 := hl K
          rw [lookupEarliest_cons, lookupEarliest_cons,
            if_neg (fun hc => hK hc.symm), if_neg (fun hc => hK (hc.symm.trans hkey.symm))] at h1
          exact h1
      calc e :: es = (e.1, e.2) :: es := by rw [Prod.mk.eta]
        _ = (f.1, f.2) :: fs := by rw [hkey, hval, hrest]
        _ = f :: fs := by rw [Prod.mk.eta]

/-! #### Earliest-card selection: `strictMinFold` and `leftmostMin` -/

/-- Unfolding equation for the earliest-card fold. -/
lemma strictMinFold_cons (dues : Nat → Nat) (acc : Option (Nat × Nat)) (c : Nat)
    (l : List Nat) :
    strictMinFold dues acc (c :: l) =
      strictMinFold dues
        (match acc with
         | none => some (c, dues c)
         | some e => if e.2 > dues c then some (c, dues c) else acc) l := by
  unfold strictMinFold
  rw [List.foldl_cons]

/-- Prepending two elements to `leftmostMin` is prepending their leftmost
minimum. -/
lemma leftmostMin_cons_cons (dues : Nat → Nat) (b c : Nat) (cs : List Nat) :
    leftmostMin dues (b :: c :: cs) =
      leftmostMin dues ((if dues b > dues c then c else b) :: cs) := by
  by_cases hbc : dues b > dues c
  · rw [if_pos hbc]
    show (match leftmostMin dues (c :: cs) with
          | none => some b
          | some m => if dues b ≤ dues m then some b else some m) =
        (match leftmostMin dues cs with
          | none => some c
          | some m => if dues c ≤ dues m then some c else some m)
    rw [show leftmostMin dues (c :: cs) =
        (match leftmostMin dues cs with
         | none => some c
         | some m => if dues c ≤ dues m then some c else some m) from rfl]
    cases leftmostMin dues cs with
    | none =>
      dsimp only
      rw [if_neg (by omega)]
    | some m =>
      dsimp only
      by_cases hcm : dues c ≤ dues m
      · rw [if_pos hcm]
        dsimp only
        rw [if_neg (by omega)]
      · rw [if_neg hcm]
        dsimp only
        rw [if_neg (by omega)]
  · rw [if_neg hbc]
    show (match leftmostMin dues (c :: cs) with
          | none => some b
          | some m => if dues b ≤ dues m then some b else some m) =
        (match leftmostMin dues cs with
          | none => some b
          | some m => if dues b ≤ dues m then some b else some m)
    rw [show leftmostMin dues (c :: cs) =
        (match leftmostMin dues cs with
         | none => some c
         | some m => if dues c ≤ dues m then some c else some m) from rfl]
    cases leftmostMin dues cs with
    | none =>
      dsimp only
      rw [if_pos (by omega)]
    | some m =>
      dsimp only
      by_cases hcm : dues c ≤ dues m
      · rw [if_pos hcm]
        dsimp only
        rw [if_pos (by omega), if_pos (by omega)]
      · rw [if_neg hcm]

/-- The earliest-card fold started from a holder computes the leftmost
minimum with the holder prepended. -/
lemma strictMinFold_some_eq (dues : Nat → Nat) (l : List Nat) : ∀ (b : Nat),
    strictMinFold dues (some (b, dues b)) l =
      (leftmostMin dues (b :: l)).map fun c => (c, dues c) := by
  induction l with
  | nil =>
    intro b
    rfl
  | cons c cs ih =>
    intro b
    rw [strictMinFold_cons]
    simp only
    rw [leftmostMin_cons_cons]
    by_cases hbc : dues b > dues c
    · rw [if_pos hbc, if_pos hbc]
      exact ih c
    · rw [if_neg hbc, if_neg hbc]
      exact ih b

/-- The earliest-card fold from an empty holder is the leftmost minimum. -/
lemma strictMinFold_none_eq (dues : Nat → Nat) (l : List Nat) :
    strictMinFold dues none l = (leftmostMin dues l).map fun c => (c, dues c) := by
  cases l with
  | nil => rfl
  | cons c cs =>
    rw [strictMinFold_cons]
    simp only
    exact strictMinFold_some_eq dues cs c

/-- The leftmost minimum exists exactly on nonempty lists. -/
lemma leftmostMin_eq_none_iff (dues : Nat → Nat) (l : List Nat) :
    leftmostMin dues l = none ↔ l = [] := by
  cases l with
  | nil => simp [leftmostMin]
  | cons c cs =>
    constructor
    · intro h
      exfalso
      unfold leftmostMin at h
      revert h
      cases leftmostMin dues cs with
      | none => simp
      | some m =>
        simp only
        split <;> simp
    · intro h
      exact absurd h (by simp)

/-- The leftmost minimum is a member of the list. -/
lemma leftmostMin_mem (dues : Nat → Nat) : ∀ (l : List Nat) (m : Nat),
    leftmostMin dues l = some m → m ∈ l := by
  intro l
  induction l with
  | nil => intro m h; exact absurd h (by simp [leftmostMin])
  | cons c cs ih =>
    intro m h
    unfold leftmostMin at h
    revert h
    cases hu : leftmostMin dues cs with
    | none =>
      simp only
      intro h
      rw [Option.some_inj] at h
      rw [← h]
      exact List.mem_cons_self c cs
    | some b =>
      simp only
      split
      · intro h
        rw [Option.some_inj] at h
        rw [← h]
        exact List.mem_cons_self c cs
      · intro h
        rw [Option.some_inj] at h
        rw [← h]
        exact List.mem_cons_of_mem c (ih b hu)

/-- Analysis of the leftmost minimum: the list splits at the returned element,
everything before it is strictly larger and everything after it is no
smaller. -/
lemma leftmostMin_spec (dues : Nat → Nat) : ∀ (l : List Nat) (e : Nat),
    leftmostMin dues l = some e →
    ∃ pre post, l = pre ++ e :: post ∧ (∀ c ∈ pre, dues c > dues e) ∧
      (∀ c ∈ post, dues e ≤ dues c) := by
  intro l
  induction l with
  | nil => intro e h; exact absurd h (by simp [leftmostMin])
  | cons c cs ih =>
    intro e h
    unfold leftmostMin at h
    revert h
    cases hu : leftmostMin dues cs with
    | none =>
      simp only
      intro h
      rw [Option.some_inj] at h
      subst h
      refine ⟨[], [], ?_, by simp, by simp⟩
      rw [(leftmostMin_eq_none_iff dues cs).mp hu]
      rfl
    | some m =>
      simp only
      obtain ⟨pre, post, hsplit, hpre, hpost⟩ := ih m hu
      split
      · next hcm =>
        intro h
        rw [Option.some_inj] at h
        subst h
        refine ⟨[], cs, rfl, by simp, ?_⟩
        intro x hx
        rw [hsplit] at hx
        rcases List.mem_append.mp hx with hx | hx
        · exact le_trans hcm (le_of_lt (hpre x hx))
        · rcases List.mem_cons.mp hx with hx | hx
          · rw [hx]
            exact hcm
          · exact le_trans (le_trans hcm (hpost x hx)) (le_refl _)
      · next hcm =>
        intro h
        rw [Option.some_inj] at h
        subst h
        refine ⟨c :: pre, post, by rw [hsplit]; rfl, ?_, hpost⟩
        intro x hx
        rcases List.mem_cons.mp hx with hx | hx
        · rw [hx]
          omega
        · exact hpre x hx

/-- Determination of the leftmost minimum: a split with strictly larger
elements before and no-smaller elements after pins the result. -/
lemma leftmostMin_determined (dues : Nat → Nat) (e : Nat) : ∀ (pre post : List Nat),
    (∀ c ∈ pre, dues c > dues e) → (∀ c ∈ post, dues e ≤ dues c) →
    leftmostMin dues (pre ++ e :: post) = some e := by
  intro pre
  induction pre with
  | nil =>
    intro post _ hpost
    rw [List.nil_append]
    unfold leftmostMin
    cases hu : leftmostMin dues post with
    | none => simp
    | some m =>
      simp only
      rw [if_pos (hpost m (leftmostMin_mem dues post m hu))]
  | cons p pre' ih =>
    intro post hpre hpost
    rw [List.cons_append]
    unfold leftmostMin
    rw [ih post (fun c hc => hpre c (List.mem_cons_of_mem p hc)) hpost]
    simp only
    rw [if_neg (by
      have := hpre p (List.mem_cons_self p pre')
      omega)]

/-- Congruence of the leftmost minimum under pointwise increase that fixes
the minimum: if every element's due only grows and the old minimum's due is
unchanged, the same element is selected. -/
lemma leftmostMin_congr (dues dues' : Nat → Nat) (l : List Nat) (e : Nat)
    (h : leftmostMin dues l = some e) (hmono : ∀ c ∈ l, dues c ≤ dues' c)
    (hfix : dues' e = dues e) : leftmostMin dues' l = some e := by
  obtain ⟨pre, post, hsplit, hpre, hpost⟩ := leftmostMin_spec dues l e h
  rw [hsplit]
  apply leftmostMin_determined
  · intro c hc
    have h1 : dues c > dues e := hpre c hc
    have h2 : dues c ≤ dues' c := hmono c (by rw [hsplit]; exact List.mem_append_left _ hc)
    rw [hfix]
    omega
  · intro c hc
    have h1 : dues e ≤ dues c := hpost c hc
    have h2 : dues c ≤ dues' c := hmono c
      (by rw [hsplit]; exact List.mem_append_right _ (List.mem_cons_of_mem e hc))
    rw [hfix]
    omega

/-! #### First-loop (phase 1) characterization -/

/-- `orElse` against a constantly-`none` fallback is the identity. -/
lemma orElse_none_fun (o : Option (Nat × Nat)) :
    (o.orElse fun _ => none) = o := by
  cases o <;> rfl

/-- The first-loop step is the identity on cards without a sole unknown. -/
lemma phase1Step_none (cache : Nat → Option (List Morpheme)) (dues : Nat → Nat)
    (st : Phase1State) (cid : Nat) (h : soleKeyOf cache cid = none) :
    phase1Step cache dues st cid = st := by
  unfold phase1Step
  rw [h]

/-- `cards_with_morph` after one first-loop step on a sole-unknown card. -/
lemma phase1Step_cards (cache : Nat → Option (List Morpheme)) (dues : Nat → Nat)
    (st : Phase1State) (cid : Nat) (K : String × String)
    (h : soleKeyOf cache cid = some K) (K' : String × String) :
    (phase1Step cache dues st cid).cards_with_morph K' =
      if K' = K then st.cards_with_morph K' ++ [cid] else st.cards_with_morph K' := by
  unfold phase1Step
  rw [h]

/-- `earliest` after one first-loop step on a sole-unknown card. -/
lemma phase1Step_earliest (cache : Nat → Option (List Morpheme)) (dues : Nat → Nat)
    (st : Phase1State) (cid : Nat) (K : String × String)
    (h : soleKeyOf cache cid = some K) :
    (phase1Step cache dues st cid).earliest =
      match lookupEarliest K st.earliest with
      | none => st.earliest ++ [(K, cid, dues cid)]
      | some e =>
        if e.2 > dues cid then updateEarliest K (cid, dues cid) st.earliest
        else st.earliest := by
  unfold phase1Step
  rw [h]

/-- Unfolding equation for `qualifying` at a cons cell. -/
lemma qualifying_cons (cache : Nat → Option (List Morpheme)) (c : Nat) (hs : List Nat)
    (K : String × String) :
    qualifying cache (c :: hs) K =
      if soleKeyOf cache c = some K then c :: qualifying cache hs K
      else qualifying cache hs K := by
  simp only [qualifying, List.filter_cons, decide_eq_true_eq]

/-- `cards_with_morph` after the whole first loop: exactly the qualifying
cards of each key, in iteration order, appended to the initial contents. -/
lemma phase1_cards_with (cache : Nat → Option (List Morpheme)) (dues : Nat → Nat)
    (K : String × String) (handled : List Nat) : ∀ st : Phase1State,
    (handled.foldl (phase1Step cache dues) st).cards_with_morph K =
      st.cards_with_morph K ++ qualifying cache handled K := by
  induction handled with
  | nil =>
    intro st
    rw [List.foldl_nil]
    show st.cards_with_morph K = st.cards_with_morph K ++ []
    rw [List.append_nil]
  | cons c hs ih =>
    intro st
    rw [List.foldl_cons, ih, qualifying_cons]
    cases hsk : soleKeyOf cache c with
    | none =>
      rw [phase1Step_none cache dues st c hsk]
      rw [if_neg (fun hc => Option.noConfusion hc)]
    | some K' =>
      rw [phase1Step_cards cache dues st c K' hsk K]
      by_cases hKK : K = K'
      · subst hKK
        rw [if_pos rfl, if_pos rfl]
        rw [List.append_assoc]
        rfl
      · rw [if_neg hKK, if_neg (fun hc => hKK (Option.some_inj.mp hc).symm)]

/-- Lookup in `earliest` after one first-loop step. -/
lemma phase1Step_lookup (cache : Nat → Option (List Morpheme)) (dues : Nat → Nat)
    (st : Phase1State) (cid : Nat) (K : String × String) :
    lookupEarliest K (phase1Step cache dues st cid).earliest =
      if soleKeyOf cache cid = some K then
        match lookupEarliest K st.earliest with
        | none => some (cid, dues cid)
        | some e => if e.2 > dues cid then some (cid, dues cid) else some e
      else lookupEarliest K st.earliest := by
  cases hsk : soleKeyOf cache cid with
  | none =>
    rw [phase1Step_none cache dues st cid hsk,
      if_neg (fun h => Option.noConfusion h)]
  | some K' =>
    by_cases hKK : K' = K
    · subst hKK
      rw [phase1Step_earliest cache dues st cid K' hsk, if_pos rfl]
      cases hl : lookupEarliest K' st.earliest with
      | none =>
        dsimp only
        rw [lookupEarliest_append, hl]
        show lookupEarliest K' [(K', cid, dues cid)] = some (cid, dues cid)
        rw [lookupEarliest_cons, if_pos rfl]
      | some e =>
        dsimp only
        by_cases hgt : e.2 > dues cid
        · rw [if_pos hgt, if_pos hgt, lookupEarliest_update_self, hl]
          rfl
        · rw [if_neg hgt, if_neg hgt, hl]
    · rw [phase1Step_earliest cache dues st cid K' hsk,
        if_neg (fun hc => hKK (Option.some_inj.mp hc))]
      cases hl : lookupEarliest K' st.earliest with
      | none =>
        dsimp only
        rw [lookupEarliest_append]
        rw [show lookupEarliest K [(K', cid, dues cid)] = none from by
          rw [lookupEarliest_cons, if_neg hKK]
          rfl]
        exact orElse_none_fun _
      | some e =>
        dsimp only
        split
        · exact lookupEarliest_update_ne K' K (cid, dues cid) st.earliest (Ne.symm hKK)
        · rfl

/-- Lookup in `earliest` after the whole first loop is the earliest-card fold
over the qualifying cards. -/
lemma phase1_lookup (cache : Nat → Option (List Morpheme)) (dues : Nat → Nat)
    (K : String × String) (handled : List Nat) : ∀ st : Phase1State,
    lookupEarliest K (handled.foldl (phase1Step cache dues) st).earliest =
      strictMinFold dues (lookupEarliest K st.earliest) (qualifying cache handled K) := by
  induction handled with
  | nil =>
    intro st
    rfl
  | cons c hs ih =>
    intro st
    rw [List.foldl_cons, ih, qualifying_cons]
    by_cases hsk : soleKeyOf cache c = some K
    · rw [if_pos hsk, strictMinFold_cons, phase1Step_lookup, if_pos hsk]
      congr 1
      cases hl : lookupEarliest K st.earliest with
      | none => rfl
      | some e => dsimp only
    · rw [if_neg hsk, phase1Step_lookup, if_neg hsk]

/-- The key sequence of `earliest` after one first-loop step. -/
lemma phase1Step_keys (cache : Nat → Option (List Morpheme)) (dues : Nat → Nat)
    (st : Phase1State) (cid : Nat) :
    (phase1Step cache dues st cid).earliest.map Prod.fst =
      match soleKeyOf cache cid with
      | none => st.earliest.map Prod.fst
      | some K =>
        if K ∈ st.earliest.map Prod.fst then st.earliest.map Prod.fst
        else st.earliest.map Prod.fst ++ [K] := by
  cases hsk : soleKeyOf cache cid with
  | none => rw [phase1Step_none cache dues st cid hsk]
  | some K =>
    rw [phase1Step_earliest cache dues st cid K hsk]
    cases hl : lookupEarliest K st.earliest with
    | none =>
      dsimp only
      rw [List.map_append]
      rw [if_neg ((lookupEarliest_eq_none K st.earliest).mp hl)]
      rfl
    | some e =>
      dsimp only
      have hmem : K ∈ st.earliest.map Prod.fst := by
        by_contra hc
        rw [← lookupEarliest_eq_none] at hc
        rw [hc] at hl
        exact Option.noConfusion hl
      rw [if_pos hmem]
      split
      · exact updateEarliest_keys K (cid, dues cid) st.earliest
      · rfl

/-- The key sequence of `earliest` stays duplicate-free through the first
loop. -/
lemma phase1_keys_nodup (cache : Nat → Option (List Morpheme)) (dues : Nat → Nat)
    (handled : List Nat) : ∀ st : Phase1State,
    (st.earliest.map Prod.fst).Nodup →
    ((handled.foldl (phase1Step cache dues) st).earliest.map Prod.fst).Nodup := by
  induction handled with
  | nil => intro st h; exact h
  | cons c hs ih =>
    intro st h
    rw [List.foldl_cons]
    apply ih
    rw [phase1Step_keys]
    cases soleKeyOf cache c with
    | none => exact h
    | some K =>
      dsimp only
      split
      · exact h
      · next hmem =>
        exact h.append (List.nodup_singleton K)
          (fun a ha hb => hmem (by rwa [List.mem_singleton.mp hb] at ha))

/-- The key sequence of `earliest` does not depend on the due values. -/
lemma phase1_keys_eq (cache : Nat → Option (List Morpheme)) (dues₁ dues₂ : Nat → Nat)
    (handled : List Nat) : ∀ st₁ st₂ : Phase1State,
    st₁.earliest.map Prod.fst = st₂.earliest.map Prod.fst →
    (handled.foldl (phase1Step cache dues₁) st₁).earliest.map Prod.fst =
      (handled.foldl (phase1Step cache dues₂) st₂).earliest.map Prod.fst := by
  induction handled with
  | nil => intro st₁ st₂ h; exact h
  | cons c hs ih =>
    intro st₁ st₂ h
    rw [List.foldl_cons, List.foldl_cons]
    apply ih
    rw [phase1Step_keys, phase1Step_keys]
    cases soleKeyOf cache c with
    | none => exact h
    | some K =>
      dsimp only
      rw [h]

/-- Every key of `earliest` after the first loop is a sole-unknown key of
some handled card. -/
lemma phase1_keys_sub (cache : Nat → Option (List Morpheme)) (dues : Nat → Nat)
    (handled : List Nat) (K : String × String)
    (hK : K ∈ (phase1 cache dues handled).earliest.map Prod.fst) :
    K ∈ keysOf cache handled := by
  have h1 : lookupEarliest K (phase1 cache dues handled).earliest ≠ none :=
    fun hnone => ((lookupEarliest_eq_none _ _).mp hnone) hK
  rw [show phase1 cache dues handled =
      handled.foldl (phase1Step cache dues) ⟨[], fun _ => []⟩ from rfl,
    phase1_lookup] at h1
  rw [show lookupEarliest K (Phase1State.mk [] fun _ => []).earliest = none from rfl] at h1
  rw [strictMinFold_none_eq] at h1
  cases hq : qualifying cache handled K with
  | nil =>
    rw [hq, (leftmostMin_eq_none_iff dues []).mpr rfl] at h1
    exact absurd rfl h1
  | cons c cs =>
    have hc : c ∈ qualifying cache handled K := by
      rw [hq]
      exact List.mem_cons_self c cs
    have hsole : soleKeyOf cache c = some K := by
      have := List.of_mem_filter hc
      simpa using this
    have hmem : c ∈ handled := List.mem_of_mem_filter hc
    unfold keysOf
    rw [List.mem_dedup]
    exact List.mem_filterMap.mpr ⟨c, hmem, hsole⟩

/-- The number of keys in `earliest` is at most the number of distinct
sole-unknown keys. -/
lemma phase1_keys_length (cache : Nat → Option (List Morpheme)) (dues : Nat → Nat)
    (handled : List Nat) :
    ((phase1 cache dues handled).earliest.map Prod.fst).length ≤
      (keysOf cache handled).length := by
  have hnd : ((phase1 cache dues handled).earliest.map Prod.fst).Nodup :=
    phase1_keys_nodup cache dues handled ⟨[], fun _ => []⟩ (by simp)
  have hsub : (phase1 cache dues handled).earliest.map Prod.fst ⊆ keysOf cache handled :=
    fun {K} hK => phase1_keys_sub cache dues handled K hK
  exact (List.subperm_of_subset hnd hsub).length_le

/-! #### Sorting (phase 2 preliminaries) -/

/-- Insertion produces a permutation of consing. -/
lemma insertByDue_perm (x : (String × String) × Nat × Nat)
    (l : List ((String × String) × Nat × Nat)) :
    List.Perm (insertByDue x l) (x :: l) := by
  induction l with
  | nil => exact List.Perm.refl _
  | cons y ys ih =>
    unfold insertByDue
    split
    · exact List.Perm.refl _
    · exact (ih.cons y).trans (List.Perm.swap x y ys)

/-- The stable sort is a permutation of its input. -/
lemma sortByDue_perm (l : List ((String × String) × Nat × Nat)) :
    List.Perm (sortByDue l) l := by
  induction l with
  | nil => exact List.Perm.refl _
  | cons x xs ih =>
    exact (insertByDue_perm x (sortByDue xs)).trans (ih.cons x)

/-! #### Second-loop (phase 2) characterization with no incoming modified cards -/

/-- Membership in the sibling union of a cons of entries. -/
lemma mem_sibsUnion_cons (cw : (String × String) → List Nat)
    (e : (String × String) × Nat × Nat) (es : List ((String × String) × Nat × Nat))
    (c : Nat) :
    c ∈ sibsUnion cw (e :: es) ↔ c ∈ sibs cw e ∨ c ∈ sibsUnion cw es := by
  unfold sibsUnion
  rw [List.map_cons, List.flatten_cons]
  exact List.mem_append

/-- The sibling union of no entries is empty. -/
lemma not_mem_sibsUnion_nil (cw : (String × String) → List Nat) (c : Nat) :
    c ∉ sibsUnion cw [] := by
  simp [sibsUnion]

/-- One sibling step when the card is not in `modified_cards`: its persisted
due is offset, capped, and recorded in `modified_offset_cards`. -/
lemma processSib_mc_none (cfg : AnkiMorphsConfig) (dues : Nat → Nat) (st : Phase2State)
    (cid : Nat) (h : st.mc cid = none) :
    processSib cfg dues st cid =
      { mc := st.mc,
        moc := fun c => if c = cid then
          some (min (dues cid + cfg.recalc_due_offset) DEFAULT_SCORE) else st.moc c } := by
  unfold processSib
  rw [h]

/-- The sibling fold when `modified_cards` is empty everywhere: the map stays
empty and `modified_offset_cards` receives exactly the capped offsets of the
processed siblings. -/
lemma foldSibs_mc_none (cfg : AnkiMorphsConfig) (dues : Nat → Nat) (l : List Nat) :
    ∀ st : Phase2State, (∀ c, st.mc c = none) →
    (∀ c, (l.foldl (processSib cfg dues) st).mc c = none) ∧
    (∀ c, (l.foldl (processSib cfg dues) st).moc c =
      if c ∈ l then some (min (dues c + cfg.recalc_due_offset) DEFAULT_SCORE)
      else st.moc c) := by
  induction l with
  | nil =>
    intro st h
    refine ⟨h, fun c => ?_⟩
    rw [if_neg (List.not_mem_nil c)]
    rfl
  | cons s ss ih =>
    intro st h
    rw [List.foldl_cons, processSib_mc_none cfg dues st s (h s)]
    obtain ⟨h1, h2⟩ := ih
      { mc := st.mc,
        moc := fun c => if c = s then
          some (min (dues s + cfg.recalc_due_offset) DEFAULT_SCORE) else st.moc c }
      (fun c => h c)
    refine ⟨h1, fun c => ?_⟩
    rw [h2 c]
    by_cases hc : c ∈ ss
    · rw [if_pos hc, if_pos (List.mem_cons_of_mem s hc)]
    · rw [if_neg hc]
      show (if c = s then
          some (min (dues s + cfg.recalc_due_offset) DEFAULT_SCORE) else st.moc c) = _
      by_cases hcs : c = s
      · subst hcs
        rw [if_pos rfl, if_pos (List.mem_cons_self c ss)]
      · rw [if_neg hcs,
          if_neg (fun hm => (List.mem_cons.mp hm).elim hcs hc)]

/-- The second loop when `modified_cards` is empty everywhere: it stays
empty, and `modified_offset_cards` receives exactly the capped offsets of the
siblings of the processed entries — the first `limit + 1 - counter` ones. -/
lemma phase2_mc_none (cfg : AnkiMorphsConfig) (dues : Nat → Nat)
    (cw : (String × String) → List Nat)
    (ents : List ((String × String) × Nat × Nat)) : ∀ (counter : Nat) (st : Phase2State),
    (∀ c, st.mc c = none) →
    (∀ c, (phase2 cfg dues cw counter ents st).mc c = none) ∧
    (∀ c, (phase2 cfg dues cw counter ents st).moc c =
      if c ∈ sibsUnion cw
          (ents.take (cfg.recalc_number_of_morphs_to_offset + 1 - counter)) then
        some (min (dues c + cfg.recalc_due_offset) DEFAULT_SCORE)
      else st.moc c) := by
  induction ents with
  | nil =>
    intro counter st h
    refine ⟨h, fun c => ?_⟩
    rw [List.take_nil, if_neg (not_mem_sibsUnion_nil cw c)]
    rfl
  | cons ent ents ih =>
    intro counter st h
    by_cases hbreak : cfg.recalc_number_of_morphs_to_offset < counter
    · rw [show phase2 cfg dues cw counter (ent :: ents) st = st from by
        conv_lhs => unfold phase2
        rw [if_pos hbreak]]
      have htake : cfg.recalc_number_of_morphs_to_offset + 1 - counter = 0 := by omega
      rw [htake, List.take_zero]
      refine ⟨h, fun c => ?_⟩
      rw [if_neg (not_mem_sibsUnion_nil cw c)]
    · rw [show phase2 cfg dues cw counter (ent :: ents) st =
          phase2 cfg dues cw (counter + 1) ents (processEntry cfg dues cw st ent) from by
        conv_lhs => unfold phase2
        rw [if_neg hbreak]]
      obtain ⟨hmcE, hmocE⟩ := foldSibs_mc_none cfg dues (sibs cw ent) st h
      obtain ⟨h1, h2⟩ := ih (counter + 1) (processEntry cfg dues cw st ent) hmcE
      refine ⟨h1, fun c => ?_⟩
      rw [h2 c]
      have htake : cfg.recalc_number_of_morphs_to_offset + 1 - counter =
          (cfg.recalc_number_of_morphs_to_offset + 1 - (counter + 1)) + 1 := by omega
      rw [htake, List.take_succ_cons]
      by_cases hc : c ∈ sibsUnion cw
          (ents.take (cfg.recalc_number_of_morphs_to_offset + 1 - (counter + 1)))
      · rw [if_pos hc, if_pos ((mem_sibsUnion_cons cw ent _ c).mpr (Or.inr hc))]
      · rw [if_neg hc]
        rw [show processEntry cfg dues cw st ent =
            (sibs cw ent).foldl (processSib cfg dues) st from rfl]
        rw [hmocE c]
        by_cases hcs : c ∈ sibs cw ent
        · rw [if_pos hcs, if_pos ((mem_sibsUnion_cons cw ent _ c).mpr (Or.inl hcs))]
        · rw [if_neg hcs,
            if_neg (fun hm => ((mem_sibsUnion_cons cw ent _ c).mp hm).elim hcs hc)]

/-- Unfolding of the balancer into its two loops. -/
lemma add_offsets_eq (cfg : AnkiMorphsConfig) (cache : Nat → Option (List Morpheme))
    (dues : Nat → Nat) (handled : List Nat) (mc : Nat → Option Nat) :
    _add_offsets_to_new_cards cfg cache dues handled mc = fun c =>
      ((phase2 cfg dues (phase1 cache dues handled).cards_with_morph 0
          (sortByDue (phase1 cache dues handled).earliest) ⟨mc, fun _ => none⟩).moc c).orElse
        fun _ => (phase2 cfg dues (phase1 cache dues handled).cards_with_morph 0
          (sortByDue (phase1 cache dues handled).earliest) ⟨mc, fun _ => none⟩).mc c := rfl

/-- The committed dues of a balancer run with no incoming modified cards:
every sibling of a processed morph entry is offset (capped), everything else
is unchanged. -/
lemma balancer_commit_mc_none (cfg : AnkiMorphsConfig)
    (cache : Nat → Option (List Morpheme)) (dues : Nat → Nat) (handled : List Nat)
    (mc : Nat → Option Nat) (hmc : ∀ c, mc c = none) (c : Nat) :
    commitDues dues (_add_offsets_to_new_cards cfg cache dues handled mc) c =
      if c ∈ sibsUnion (phase1 cache dues handled).cards_with_morph
          ((sortByDue (phase1 cache dues handled).earliest).take
            (cfg.recalc_number_of_morphs_to_offset + 1)) then
        min (dues c + cfg.recalc_due_offset) DEFAULT_SCORE
      else dues c := by
  obtain ⟨h1, h2⟩ := phase2_mc_none cfg dues (phase1 cache dues handled).cards_with_morph
    (sortByDue (phase1 cache dues handled).earliest) 0 ⟨mc, fun _ => none⟩ hmc
  simp only [Nat.sub_zero] at h2
  unfold commitDues
  rw [add_offsets_eq]
  dsimp only
  rw [h2 c]
  by_cases hc : c ∈ sibsUnion (phase1 cache dues handled).cards_with_morph
      ((sortByDue (phase1 cache dues handled).earliest).take
        (cfg.recalc_number_of_morphs_to_offset + 1))
  · rw [if_pos hc, if_pos hc]
    rfl
  · rw [if_neg hc, if_neg hc]
    show ((none : Option Nat).orElse _).getD (dues c) = dues c
    rw [h1 c]
    rfl

/-- A member of `qualifying` is a handled card whose sole unknown morph has
the given key. -/
lemma mem_qualifying (cache : Nat → Option (List Morpheme)) (handled : List Nat)
    (K : String × String) (c : Nat) (h : c ∈ qualifying cache handled K) :
    c ∈ handled ∧ soleKeyOf cache c = some K := by
  unfold qualifying at h
  refine ⟨List.mem_of_mem_filter h, ?_⟩
  have := List.of_mem_filter h
  simpa using this

/-- Claim C3 (amended): run with no incoming modified cards, provided the
number of distinct sole-unknown morphs does not exceed the configured limit
plus one (the loop processes `limit + 1` morphs) and the morph's earliest-due
card is unique, the balancer leaves that card's due unchanged and sets every
sibling's due to its previous due plus the configured offset, capped at
MAX_SCORE. -/
theorem offset_balancer_earliest_kept_siblings_offset (cfg : AnkiMorphsConfig)
    (cache : Nat → Option (List Morpheme)) (dues : Nat → Nat) (handled : List Nat)
    (K : String × String) (e : Nat)
    (hnd : handled.Nodup)
    (hlim : (keysOf cache handled).length ≤ cfg.recalc_number_of_morphs_to_offset + 1)
    (he : e ∈ qualifying cache handled K)
    (hmin : ∀ c ∈ qualifying cache handled K, c ≠ e → dues e < dues c) :
    commitDues dues (_add_offsets_to_new_cards cfg cache dues handled (fun _ => none)) e =
      dues e ∧
    ∀ c ∈ qualifying cache handled K, c ≠ e →
      commitDues dues (_add_offsets_to_new_cards cfg cache dues handled (fun _ => none)) c =
        min (dues c + cfg.recalc_due_offset) DEFAULT_SCORE := by
  have hcw : ∀ K', (phase1 cache dues handled).cards_with_morph K' =
      qualifying cache handled K' := by
    intro K'
    rw [show phase1 cache dues handled =
        handled.foldl (phase1Step cache dues) ⟨[], fun _ => []⟩ from rfl,
      phase1_cards_with]
    exact List.nil_append _
  have hknd : ((phase1 cache dues handled).earliest.map Prod.fst).Nodup :=
    phase1_keys_nodup cache dues handled ⟨[], fun _ => []⟩ (by simp)
  have hSnd : (qualifying cache handled K).Nodup := hnd.filter _
  -- the earliest entry stored for K is (e, dues e)
  obtain ⟨s, t, hsplit⟩ := List.append_of_mem he
  have hes : e ∉ s := by
    intro hc
    have hdisj := List.disjoint_of_nodup_append (hsplit ▸ hSnd)
    exact hdisj hc (List.mem_cons_self e t)
  have het : e ∉ t := by
    have h1 : (e :: t).Nodup := ((hsplit ▸ hSnd).of_append_right)
    exact (List.nodup_cons.mp h1).1
  have hlm : leftmostMin dues (qualifying cache handled K) = some e := by
    rw [hsplit]
    apply leftmostMin_determined
    · intro c hc
      have hcS : c ∈ qualifying cache handled K := by
        rw [hsplit]
        exact List.mem_append_left _ hc
      have hcne : c ≠ e := fun hce => hes (hce ▸ hc)
      exact hmin c hcS hcne
    · intro c hc
      have hcS : c ∈ qualifying cache handled K := by
        rw [hsplit]
        exact List.mem_append_right _ (List.mem_cons_of_mem e hc)
      by_cases hce : c = e
      · rw [hce]
      · exact le_of_lt (hmin c hcS hce)
  have hlook : lookupEarliest K (phase1 cache dues handled).earliest = some (e, dues e) := by
    rw [show phase1 cache dues handled =
        handled.foldl (phase1Step cache dues) ⟨[], fun _ => []⟩ from rfl,
      phase1_lookup]
    rw [show lookupEarliest K (Phase1State.mk [] fun _ => []).earliest = none from rfl]
    rw [strictMinFold_none_eq, hlm]
    rfl
  -- the sorted entry list is fully processed
  have hlen : (sortByDue (phase1 cache dues handled).earliest).length ≤
      cfg.recalc_number_of_morphs_to_offset + 1 := by
    rw [(sortByDue_perm _).length_eq]
    calc (phase1 cache dues handled).earliest.length
        = ((phase1 cache dues handled).earliest.map Prod.fst).length :=
          (List.length_map _ _).symm
      _ ≤ (keysOf cache handled).length := phase1_keys_length cache dues handled
      _ ≤ cfg.recalc_number_of_morphs_to_offset + 1 := hlim
  have htake : (sortByDue (phase1 cache dues handled).earliest).take
      (cfg.recalc_number_of_morphs_to_offset + 1) =
      sortByDue (phase1 cache dues handled).earliest := List.take_of_length_le hlen
  have hKent : ((K, e, dues e) : (String × String) × Nat × Nat) ∈
      sortByDue (phase1 cache dues handled).earliest :=
    ((sortByDue_perm _).mem_iff).mpr (lookupEarliest_mem K (e, dues e) _ hlook)
  -- every entry's sibling list avoids the earliest card e
  have henotin : e ∉ sibsUnion (phase1 cache dues handled).cards_with_morph
      ((sortByDue (phase1 cache dues handled).earliest).take
        (cfg.recalc_number_of_morphs_to_offset + 1)) := by
    rw [htake]
    intro hmem
    unfold sibsUnion at hmem
    obtain ⟨l, hl, hel⟩ := List.mem_flatten.mp hmem
    obtain ⟨ent, hent, hlent⟩ := List.mem_map.mp hl
    rw [← hlent] at hel
    have hentE : ent ∈ (phase1 cache dues handled).earliest :=
      ((sortByDue_perm _).mem_iff).mp hent
    have hentlook : lookupEarliest ent.1 (phase1 cache dues handled).earliest =
        some ent.2 := lookupEarliest_of_mem_nodup ent.1 ent.2 _ hknd (by
          rw [show ((ent.1, ent.2) : (String × String) × Nat × Nat) = ent from rfl]
          exact hentE)
    by_cases hKK : ent.1 = K
    · rw [hKK, hlook] at hentlook
      have hent2 : ent.2 = (e, dues e) := Option.some_inj.mp hentlook.symm
      unfold sibs at hel
      rw [hent2, hKK, hcw K] at hel
      have := (hSnd.mem_erase_iff).mp hel
      exact this.1 rfl
    · unfold sibs at hel
      have h1 : e ∈ (phase1 cache dues handled).cards_with_morph ent.1 :=
        List.mem_of_mem_erase hel
      rw [hcw ent.1] at h1
      have h2 := (mem_qualifying cache handled ent.1 e h1).2
      have h3 := (mem_qualifying cache handled K e he).2
      rw [h2] at h3
      exact hKK (Option.some_inj.mp h3)
  constructor
  · rw [balancer_commit_mc_none cfg cache dues handled (fun _ => none) (fun _ => rfl) e]
    rw [if_neg henotin]
  · intro c hcS hcne
    rw [balancer_commit_mc_none cfg cache dues handled (fun _ => none) (fun _ => rfl) c]
    rw [if_pos ?memb]
    case memb =>
      rw [htake]
      unfold sibsUnion
      apply List.mem_flatten.mpr
      refine ⟨sibs (phase1 cache dues handled).cards_with_morph (K, e, dues e),
        List.mem_map_of_mem _ hKent, ?_⟩
      unfold sibs
      rw [show ((K, e, dues e) : (String × String) × Nat × Nat).1 = K from rfl]
      rw [show ((K, e, dues e) : (String × String) × Nat × Nat).2.1 = e from rfl]
      rw [hcw K]
      exact (List.mem_erase_of_ne hcne).mpr hcS

/-- Witness for C3 (amended) at a concrete input: with morph limit 5, morph
`m1` (sole unknown of cards 1 (due 10) and 2 (due 20)) keeps card 1 untouched
and card 2 receives due 20 + 7. -/
theorem offset_balancer_earliest_kept_siblings_offset_witness :
    (keysOf c3Cache [1, 2, 3, 4]).length ≤ cfgC3W.recalc_number_of_morphs_to_offset + 1 ∧
    (1 : Nat) ∈ qualifying c3Cache [1, 2, 3, 4] ("m1", "m1") ∧
    commitDues c3Dues (_add_offsets_to_new_cards cfgC3W c3Cache c3Dues [1, 2, 3, 4]
      (fun _ => none)) 1 = c3Dues 1 ∧
    commitDues c3Dues (_add_offsets_to_new_cards cfgC3W c3Cache c3Dues [1, 2, 3, 4]
      (fun _ => none)) 2 = min (c3Dues 2 + cfgC3W.recalc_due_offset) DEFAULT_SCORE :=
  ⟨by decide, by decide,
   (offset_balancer_earliest_kept_siblings_offset cfgC3W c3Cache c3Dues [1, 2, 3, 4]
      ("m1", "m1") 1 (by decide) (by decide) (by decide) (by decide)).1,
   (offset_balancer_earliest_kept_siblings_offset cfgC3W c3Cache c3Dues [1, 2, 3, 4]
      ("m1", "m1") 1 (by decide) (by decide) (by decide) (by decide)).2 2 (by decide)
      (by decide)⟩

/-! #### Second loop on a re-scored state (towards C4) -/

/-- The sibling fold of one entry in a re-scored run.  When every sibling in
`modified_cards` already carries the value whose offset equals its persisted
due, the fold erases exactly those entries (the `del … continue` branch) and
only ever records a sibling's current due in `modified_offset_cards`. -/
lemma foldSibs_run2 (cfg : AnkiMorphsConfig) (dues₁ : Nat → Nat) (l : List Nat) :
    ∀ st : Phase2State, l.Nodup →
    (∀ c ∈ l, ∀ v, st.mc c = some v →
      dues₁ c = min (v + cfg.recalc_due_offset) DEFAULT_SCORE) →
    (∀ c ∈ l, st.mc c = none →
      min (dues₁ c + cfg.recalc_due_offset) DEFAULT_SCORE = dues₁ c) →
    (∀ c v, st.moc c = some v → v = dues₁ c) →
    (∀ c ∈ l, (l.foldl (processSib cfg dues₁) st).mc c = none) ∧
    (∀ c, c ∉ l → (l.foldl (processSib cfg dues₁) st).mc c = st.mc c) ∧
    (∀ c, c ∉ l → (l.foldl (processSib cfg dues₁) st).moc c = st.moc c) ∧
    (∀ c v, (l.foldl (processSib cfg dues₁) st).moc c = some v → v = dues₁ c) := by
  induction l with
  | nil =>
    intro st _ _ _ hmoc
    exact ⟨fun c hc => absurd hc (List.not_mem_nil c), fun c _ => rfl, fun c _ => rfl, hmoc⟩
  | cons s ss ih =>
    intro st hnd hmc hctx hmoc
    rw [List.foldl_cons]
    have hsnotss : s ∉ ss := (List.nodup_cons.mp hnd).1
    cases hs : st.mc s with
    | some d =>
      have heq : dues₁ s = min (d + cfg.recalc_due_offset) DEFAULT_SCORE :=
        hmc s (List.mem_cons_self s ss) d hs
      have hstep : processSib cfg dues₁ st s =
          { mc := fun c => if c = s then none else st.mc c, moc := st.moc } := by
        unfold processSib
        rw [hs]
        dsimp only
        rw [if_pos heq]
      rw [hstep]
      obtain ⟨c1, c2, c3, c4⟩ := ih
        { mc := fun c => if c = s then none else st.mc c, moc := st.moc }
        (List.nodup_cons.mp hnd).2
        (fun c hc v hv => by
          have hcs : ¬ c = s := fun hcc => hsnotss (hcc ▸ hc)
          dsimp only at hv
          rw [if_neg hcs] at hv
          exact hmc c (List.mem_cons_of_mem s hc) v hv)
        (fun c hc hv => by
          have hcs : ¬ c = s := fun hcc => hsnotss (hcc ▸ hc)
          dsimp only at hv
          rw [if_neg hcs] at hv
          exact hctx c (List.mem_cons_of_mem s hc) hv)
        hmoc
      refine ⟨?_, ?_, ?_, c4⟩
      · intro c hc
        rcases List.mem_cons.mp hc with hc | hc
        · subst hc
          rw [c2 c hsnotss]
          dsimp only
          rw [if_pos rfl]
        · exact c1 c hc
      · intro c hc
        have hcs : ¬ c = s := fun hcc => hc (hcc ▸ List.mem_cons_self s ss)
        have hcss : c ∉ ss := fun hcc => hc (List.mem_cons_of_mem s hcc)
        rw [c2 c hcss]
        dsimp only
        rw [if_neg hcs]
      · intro c hc
        exact c3 c (fun hcc => hc (List.mem_cons_of_mem s hcc))
    | none =>
      have hval : min (dues₁ s + cfg.recalc_due_offset) DEFAULT_SCORE = dues₁ s :=
        hctx s (List.mem_cons_self s ss) hs
      have hstep : processSib cfg dues₁ st s =
          { mc := st.mc,
            moc := fun c => if c = s then
              some (min (dues₁ s + cfg.recalc_due_offset) DEFAULT_SCORE)
              else st.moc c } := by
        unfold processSib
        rw [hs]
      rw [hstep]
      obtain ⟨c1, c2, c3, c4⟩ := ih
        { mc := st.mc,
          moc := fun c => if c = s then
            some (min (dues₁ s + cfg.recalc_due_offset) DEFAULT_SCORE)
            else st.moc c }
        (List.nodup_cons.mp hnd).2
        (fun c hc v hv => hmc c (List.mem_cons_of_mem s hc) v hv)
        (fun c hc hv => hctx c (List.mem_cons_of_mem s hc) hv)
        (fun c v hv => by
          dsimp only at hv
          by_cases hcs : c = s
          · rw [if_pos hcs] at hv
            rw [Option.some_inj] at hv
            rw [← hv, hcs]
            exact hval
          · rw [if_neg hcs] at hv
            exact hmoc c v hv)
      refine ⟨?_, ?_, ?_, c4⟩
      · intro c hc
        rcases List.mem_cons.mp hc with hc | hc
        · subst hc
          rw [c2 c hsnotss]
          exact hs
        · exact c1 c hc
      · intro c hc
        exact c2 c (fun hcc => hc (List.mem_cons_of_mem s hcc))
      · intro c hc
        have hcs : ¬ c = s := fun hcc => hc (hcc ▸ List.mem_cons_self s ss)
        rw [c3 c (fun hcc => hc (List.mem_cons_of_mem s hcc))]
        dsimp only
        rw [if_neg hcs]

/-- The second loop in a re-scored run: when every surviving
`modified_cards` entry carries a value whose offset is the card's current
persisted due and belongs to the siblings of a still-pending entry, and every
sibling outside the map is at a fixed point of the capped offset, the loop
erases every `modified_cards` entry and only records values equal to the
current dues — so committing its result changes no due. -/
lemma phase2_run2 (cfg : AnkiMorphsConfig) (dues₁ : Nat → Nat)
    (cw : (String × String) → List Nat) (keyOf : Nat → Option (String × String))
    (hcwnd : ∀ K, (cw K).Nodup)
    (hsibkey : ∀ ent : (String × String) × Nat × Nat, ∀ c ∈ sibs cw ent,
      keyOf c = some ent.1)
    (ents : List ((String × String) × Nat × Nat)) :
    ∀ (counter : Nat) (st : Phase2State),
    (ents.map Prod.fst).Nodup →
    (∀ c v, st.mc c = some v →
      dues₁ c = min (v + cfg.recalc_due_offset) DEFAULT_SCORE ∧
      c ∈ sibsUnion cw (ents.take (cfg.recalc_number_of_morphs_to_offset + 1 - counter))) →
    (∀ c v, st.moc c = some v → v = dues₁ c) →
    (∀ ent ∈ ents.take (cfg.recalc_number_of_morphs_to_offset + 1 - counter),
      ∀ c ∈ sibs cw ent, st.mc c = none →
      min (dues₁ c + cfg.recalc_due_offset) DEFAULT_SCORE = dues₁ c) →
    (∀ c v, (phase2 cfg dues₁ cw counter ents st).moc c = some v → v = dues₁ c) ∧
    (∀ c, (phase2 cfg dues₁ cw counter ents st).mc c = none) := by
  induction ents with
  | nil =>
    intro counter st _ hmc hmoc _
    have hred : phase2 cfg dues₁ cw counter [] st = st := by
      conv_lhs => unfold phase2
    rw [hred]
    refine ⟨hmoc, fun c => ?_⟩
    cases hcm : st.mc c with
    | none => rfl
    | some v =>
      exact absurd (hmc c v hcm).2 (by rw [List.take_nil]; exact not_mem_sibsUnion_nil cw c)
  | cons ent ents ih =>
    intro counter st hknd hmc hmoc hctx
    by_cases hbreak : cfg.recalc_number_of_morphs_to_offset < counter
    · rw [show phase2 cfg dues₁ cw counter (ent :: ents) st = st from by
        conv_lhs => unfold phase2
        rw [if_pos hbreak]]
      have htake : cfg.recalc_number_of_morphs_to_offset + 1 - counter = 0 := by omega
      rw [htake, List.take_zero] at hmc
      refine ⟨hmoc, fun c => ?_⟩
      cases hcm : st.mc c with
      | none => rfl
      | some v => exact absurd (hmc c v hcm).2 (not_mem_sibsUnion_nil cw c)
    · rw [show phase2 cfg dues₁ cw counter (ent :: ents) st =
          phase2 cfg dues₁ cw (counter + 1) ents (processEntry cfg dues₁ cw st ent) from by
        conv_lhs => unfold phase2
        rw [if_neg hbreak]]
      have htake : cfg.recalc_number_of_morphs_to_offset + 1 - counter =
          (cfg.recalc_number_of_morphs_to_offset + 1 - (counter + 1)) + 1 := by omega
      rw [htake, List.take_succ_cons] at hmc hctx
      have hentmem : ent ∈ ent ::
          ents.take (cfg.recalc_number_of_morphs_to_offset + 1 - (counter + 1)) :=
        List.mem_cons_self _ _
      obtain ⟨g1, g2, g3, g4⟩ := foldSibs_run2 cfg dues₁ (sibs cw ent) st
        ((hcwnd ent.1).erase _)
        (fun c hc v hv => (hmc c v hv).1)
        (fun c hc hv => hctx ent hentmem c hc hv)
        hmoc
      have hdisj : ∀ ent', ent' ∈ ents → ∀ c ∈ sibs cw ent', c ∉ sibs cw ent := by
        intro ent' hent' c hc1 hc2
        have h1 := hsibkey ent' c hc1
        have h2 := hsibkey ent c hc2
        rw [h1] at h2
        have hkeq : ent'.1 = ent.1 := Option.some_inj.mp h2
        rw [List.map_cons, List.nodup_cons] at hknd
        exact hknd.1 (hkeq ▸ List.mem_map_of_mem Prod.fst hent')
      obtain ⟨r1, r2⟩ := ih (counter + 1) (processEntry cfg dues₁ cw st ent)
        (by rw [List.map_cons, List.nodup_cons] at hknd; exact hknd.2)
        (fun c v hv => by
          rw [show processEntry cfg dues₁ cw st ent =
            (sibs cw ent).foldl (processSib cfg dues₁) st from rfl] at hv
          by_cases hcsib : c ∈ sibs cw ent
          · rw [g1 c hcsib] at hv
            exact Option.noConfusion hv
          · rw [g2 c hcsib] at hv
            obtain ⟨hval, hmem⟩ := hmc c v hv
            refine ⟨hval, ?_⟩
            rcases (mem_sibsUnion_cons cw ent _ c).mp hmem with hm | hm
            · exact absurd hm hcsib
            · exact hm)
        (fun c v hv => by
          rw [show processEntry cfg dues₁ cw st ent =
            (sibs cw ent).foldl (processSib cfg dues₁) st from rfl] at hv
          exact g4 c v hv)
        (fun ent' hent' c hc hv => by
          have hent'mem : ent' ∈ ents :=
            List.take_subset _ _ hent'
          have hcnotsib : c ∉ sibs cw ent := hdisj ent' hent'mem c hc
          rw [show processEntry cfg dues₁ cw st ent =
            (sibs cw ent).foldl (processSib cfg dues₁) st from rfl] at hv
          rw [g2 c hcnotsib] at hv
          exact hctx ent' (List.mem_cons_of_mem ent hent') c hc hv)
      exact ⟨r1, r2⟩

/-- A full score-and-balance pass starting from dues that equal the scores
leaves any subsequent pass with nothing to change: with `dues1` the dues
committed by the first pass, a second pass returns `dues1` unchanged. -/
lemma recalcPass_noop (cfg : AnkiMorphsConfig) (cache : Nat → Option (List Morpheme))
    (scores : Nat → Nat) (handled : List Nat) (dues dues1 : Nat → Nat)
    (hnd : handled.Nodup)
    (hsc : ∀ c ∈ handled, scores c ≤ DEFAULT_SCORE)
    (hdues : ∀ c ∈ handled, dues c = scores c)
    (hdef : dues1 = recalcPass cfg cache scores handled dues) :
    ∀ c, recalcPass cfg cache scores handled dues1 c = dues1 c := by
  have hcw : ∀ d : Nat → Nat, ∀ K', (phase1 cache d handled).cards_with_morph K' =
      qualifying cache handled K' := by
    intro d K'
    rw [show phase1 cache d handled =
        handled.foldl (phase1Step cache d) ⟨[], fun _ => []⟩ from rfl, phase1_cards_with]
    exact List.nil_append _
  have hknd : ((phase1 cache dues handled).earliest.map Prod.fst).Nodup :=
    phase1_keys_nodup cache dues handled ⟨[], fun _ => []⟩ (by simp)
  have hlookP : ∀ (d : Nat → Nat) (K : String × String),
      lookupEarliest K (phase1 cache d handled).earliest =
        (leftmostMin d (qualifying cache handled K)).map fun c => (c, d c) := by
    intro d K
    rw [show phase1 cache d handled =
        handled.foldl (phase1Step cache d) ⟨[], fun _ => []⟩ from rfl, phase1_lookup]
    rw [show lookupEarliest K (Phase1State.mk [] fun _ => []).earliest = none from rfl]
    exact strictMinFold_none_eq d _
  have hmc0 : ∀ c, modifiedByScores handled scores dues c = none := by
    intro c
    unfold modifiedByScores
    rw [if_neg]
    rintro ⟨h1, h2⟩
    exact h2 (hdues c h1).symm
  have hdues1 : ∀ c, dues1 c =
      if c ∈ sibsUnion (phase1 cache dues handled).cards_with_morph
          ((sortByDue (phase1 cache dues handled).earliest).take
            (cfg.recalc_number_of_morphs_to_offset + 1)) then
        min (dues c + cfg.recalc_due_offset) DEFAULT_SCORE
      else dues c := by
    intro c
    rw [hdef]
    exact balancer_commit_mc_none cfg cache dues handled _ hmc0 c
  have hprocH : ∀ c, c ∈ sibsUnion (phase1 cache dues handled).cards_with_morph
      ((sortByDue (phase1 cache dues handled).earliest).take
        (cfg.recalc_number_of_morphs_to_offset + 1)) → c ∈ handled := by
    intro c hc
    unfold sibsUnion at hc
    obtain ⟨l, hl, hcl⟩ := List.mem_flatten.mp hc
    obtain ⟨ent, _, hentl⟩ := List.mem_map.mp hl
    rw [← hentl] at hcl
    have h1 : c ∈ (phase1 cache dues handled).cards_with_morph ent.1 :=
      List.mem_of_mem_erase hcl
    rw [hcw dues ent.1] at h1
    exact (mem_qualifying cache handled ent.1 c h1).1
  have hmono : ∀ c, dues c ≤ dues1 c := by
    intro c
    rw [hdues1 c]
    split
    · next hc =>
      have hch : c ∈ handled := hprocH c hc
      have hdD : dues c ≤ DEFAULT_SCORE := by
        rw [hdues c hch]
        exact hsc c hch
      exact le_min (Nat.le_add_right _ _) hdD
    · exact le_refl _
  have hEnotSib : ∀ (K : String × String) (e : Nat),
      leftmostMin dues (qualifying cache handled K) = some e →
      e ∉ sibsUnion (phase1 cache dues handled).cards_with_morph
        ((sortByDue (phase1 cache dues handled).earliest).take
          (cfg.recalc_number_of_morphs_to_offset + 1)) := by
    intro K e hlK hmem
    have hlook : lookupEarliest K (phase1 cache dues handled).earliest =
        some (e, dues e) := by
      rw [hlookP dues K, hlK]
      rfl
    unfold sibsUnion at hmem
    obtain ⟨l, hl, hel⟩ := List.mem_flatten.mp hmem
    obtain ⟨ent, hent, hentl⟩ := List.mem_map.mp hl
    rw [← hentl] at hel
    have hent2 : ent ∈ sortByDue (phase1 cache dues handled).earliest :=
      List.take_subset _ _ hent
    have hentE : ent ∈ (phase1 cache dues handled).earliest :=
      ((sortByDue_perm _).mem_iff).mp hent2
    have hentlook : lookupEarliest ent.1 (phase1 cache dues handled).earliest =
        some ent.2 := lookupEarliest_of_mem_nodup ent.1 ent.2 _ hknd (by
          rw [show ((ent.1, ent.2) : (String × String) × Nat × Nat) = ent from rfl]
          exact hentE)
    by_cases hKK : ent.1 = K
    · rw [hKK, hlook] at hentlook
      have hent2v : ent.2 = (e, dues e) := Option.some_inj.mp hentlook.symm
      unfold sibs at hel
      rw [hent2v, hKK, hcw dues K] at hel
      have hSnd : (qualifying cache handled K).Nodup := hnd.filter _
      exact ((hSnd.mem_erase_iff).mp hel).1 rfl
    · unfold sibs at hel
      have h1 : e ∈ (phase1 cache dues handled).cards_with_morph ent.1 :=
        List.mem_of_mem_erase hel
      rw [hcw dues ent.1] at h1
      have h2 := (mem_qualifying cache handled ent.1 e h1).2
      have he : e ∈ qualifying cache handled K := leftmostMin_mem dues _ e hlK
      have h3 := (mem_qualifying cache handled K e he).2
      rw [h2] at h3
      exact hKK (Option.some_inj.mp h3)
  have hfix : ∀ (K : String × String) (e : Nat),
      leftmostMin dues (qualifying cache handled K) = some e → dues1 e = dues e := by
    intro K e hlK
    rw [hdues1 e, if_neg (hEnotSib K e hlK)]
  have hkeysE : (phase1 cache dues1 handled).earliest.map Prod.fst =
      (phase1 cache dues handled).earliest.map Prod.fst := by
    rw [show phase1 cache dues1 handled =
        handled.foldl (phase1Step cache dues1) ⟨[], fun _ => []⟩ from rfl,
      show phase1 cache dues handled =
        handled.foldl (phase1Step cache dues) ⟨[], fun _ => []⟩ from rfl]
    exact phase1_keys_eq cache dues1 dues handled _ _ rfl
  have hE : (phase1 cache dues1 handled).earliest =
      (phase1 cache dues handled).earliest := by
    apply assoc_ext _ _ hkeysE (by rw [hkeysE]; exact hknd)
    intro K
    rw [hlookP dues1 K, hlookP dues K]
    cases hq : leftmostMin dues (qualifying cache handled K) with
    | none =>
      have hnil : qualifying cache handled K = [] := (leftmostMin_eq_none_iff _ _).mp hq
      rw [(leftmostMin_eq_none_iff dues1 _).mpr hnil]
      rfl
    | some e =>
      rw [leftmostMin_congr dues dues1 _ e hq (fun c _ => hmono c) (hfix K e hq)]
      show some (e, dues1 e) = some (e, dues e)
      rw [hfix K e hq]
  have hcwE : (phase1 cache dues1 handled).cards_with_morph =
      (phase1 cache dues handled).cards_with_morph :=
    funext fun K => (hcw dues1 K).trans (hcw dues K).symm
  have hkndS : ((sortByDue (phase1 cache dues handled).earliest).map Prod.fst).Nodup :=
    (((sortByDue_perm _).map Prod.fst).symm).nodup hknd
  have hmc1 : ∀ c v, modifiedByScores handled scores dues1 c = some v →
      v = scores c ∧ c ∈ handled ∧ scores c ≠ dues1 c := by
    intro c v hv
    unfold modifiedByScores at hv
    split at hv
    · next hcond => exact ⟨(Option.some_inj.mp hv).symm, hcond.1, hcond.2⟩
    · exact Option.noConfusion hv
  obtain ⟨gA, gB⟩ := phase2_run2 cfg dues1 (phase1 cache dues handled).cards_with_morph
    (soleKeyOf cache)
    (fun K => by rw [hcw dues K]; exact hnd.filter _)
    (fun ent c hc => by
      unfold sibs at hc
      have h1 : c ∈ (phase1 cache dues handled).cards_with_morph ent.1 :=
        List.mem_of_mem_erase hc
      rw [hcw dues ent.1] at h1
      exact (mem_qualifying cache handled ent.1 c h1).2)
    (sortByDue (phase1 cache dues handled).earliest) 0
    ⟨modifiedByScores handled scores dues1, fun _ => none⟩
    hkndS
    (by
      intro c' v hv
      dsimp only at hv
      obtain ⟨hvs, hch, hne⟩ := hmc1 c' v hv
      have hproc : c' ∈ sibsUnion (phase1 cache dues handled).cards_with_morph
          ((sortByDue (phase1 cache dues handled).earliest).take
            (cfg.recalc_number_of_morphs_to_offset + 1)) := by
        by_contra hcon
        have h2 := hdues1 c'
        rw [if_neg hcon] at h2
        exact hne (by rw [h2, hdues c' hch])
      refine ⟨?_, hproc⟩
      have h2 := hdues1 c'
      rw [if_pos hproc] at h2
      rw [h2, hvs, hdues c' hch])
    (fun c' v hv => Option.noConfusion hv)
    (by
      intro ent hent c' hc' hnone
      dsimp only at hnone
      have hch : c' ∈ handled := by
        unfold sibs at hc'
        have h1 := List.mem_of_mem_erase hc'
        rw [hcw dues ent.1] at h1
        exact (mem_qualifying cache handled ent.1 c' h1).1
      have hsd : scores c' = dues1 c' := by
        by_contra hcon
        have hsome : modifiedByScores handled scores dues1 c' = some (scores c') := by
          unfold modifiedByScores
          rw [if_pos ⟨hch, hcon⟩]
        rw [hnone] at hsome
        exact Option.noConfusion hsome
      have hproc : c' ∈ sibsUnion (phase1 cache dues handled).cards_with_morph
          ((sortByDue (phase1 cache dues handled).earliest).take
            (cfg.recalc_number_of_morphs_to_offset + 1)) := by
        unfold sibsUnion
        exact List.mem_flatten.mpr
          ⟨sibs (phase1 cache dues handled).cards_with_morph ent,
            List.mem_map_of_mem _ hent, hc'⟩
      have h2 := hdues1 c'
      rw [if_pos hproc] at h2
      have h3 : dues c' = dues1 c' := by
        rw [hdues c' hch]
        exact hsd
      rw [← h3] at h2 ⊢
      exact h2.symm)
  intro c
  show commitDues dues1 (_add_offsets_to_new_cards cfg cache dues1 handled
    (modifiedByScores handled scores dues1)) c = dues1 c
  unfold commitDues
  rw [add_offsets_eq]
  dsimp only
  rw [hcwE, hE]
  cases hm : (phase2 cfg dues1 (phase1 cache dues handled).cards_with_morph 0
      (sortByDue (phase1 cache dues handled).earliest)
      ⟨modifiedByScores handled scores dues1, fun _ => none⟩).moc c with
  | some v =>
    show v = dues1 c
    exact gA c v hm
  | none =>
    show ((phase2 cfg dues1 (phase1 cache dues handled).cards_with_morph 0
        (sortByDue (phase1 cache dues handled).earliest)
        ⟨modifiedByScores handled scores dues1, fun _ => none⟩).mc c).getD
        (dues1 c) = dues1 c
    rw [gB c]
    rfl

/-- Claim C4 (amended): the combined score-and-balance pass is idempotent
PROVIDED every handled card's persisted due already equals its computed score
when the first pass starts (the state left behind by a committed recalc).
Under that condition the second run changes no card's due value; from
arbitrary persisted dues it can (see the counterexample). -/
theorem offset_balancer_idempotent_from_scores (cfg : AnkiMorphsConfig)
    (cache : Nat → Option (List Morpheme)) (scores : Nat → Nat) (handled : List Nat)
    (dues : Nat → Nat) (hnd : handled.Nodup)
    (hsc : ∀ c ∈ handled, scores c ≤ DEFAULT_SCORE)
    (hdues : ∀ c ∈ handled, dues c = scores c) :
    ∀ c, recalcPass cfg cache scores handled (recalcPass cfg cache scores handled dues) c =
      recalcPass cfg cache scores handled dues c :=
  recalcPass_noop cfg cache scores handled dues _ hnd hsc hdues rfl

/-- Concrete witness for claim C4: two sibling cards with dues already equal
to their scores; the second balance pass changes nothing. -/
theorem offset_balancer_idempotent_from_scores_witness :
    ([1, 2] : List Nat).Nodup ∧
    (∀ c ∈ ([1, 2] : List Nat), c4Scores c ≤ DEFAULT_SCORE) ∧
    (∀ c ∈ ([1, 2] : List Nat), c4Scores c = c4Scores c) ∧
    ∀ c, recalcPass cfgC4 c4Cache c4Scores [1, 2]
        (recalcPass cfgC4 c4Cache c4Scores [1, 2] c4Scores) c =
      recalcPass cfgC4 c4Cache c4Scores [1, 2] c4Scores c :=
  ⟨by decide, by decide, fun _ _ => rfl,
    offset_balancer_idempotent_from_scores cfgC4 c4Cache c4Scores [1, 2] c4Scores
      (by decide) (by decide) (fun _ _ => rfl)⟩

end AnkiMorphs
